import Mathlib

/-!
Verification development for the RaiderPortal client-side data layer.

The JavaScript sources are shallowly embedded as Lean definitions:

* strings are lists of characters (JS strings are sequences of UTF-16
  code units; all data handled by the repository is plain text, and the
  embedding uses Lean characters);
* the locale-sensitive String.prototype.localeCompare tiebreaker is
  modelled as code-unit lexicographic comparison (strCmp below);
* the stable ECMAScript Array.prototype.sort is modelled as a stable
  insertion sort (stableSortLe below);
* regular-expression replacements are modelled by hand-written scanners
  that follow the concrete regexes of the source, character by character;
* loops whose cursor can jump forward by more than one character are
  written with an explicit fuel argument so that every definition is
  structurally recursive and computable; the wrappers pass the length of
  the scanned string as fuel, which is always sufficient because every
  iteration consumes at least one character;
* asynchronous code is modelled by explicit step functions over a shared
  state, with the cooperative interleaving fixed by the scenario under
  consideration.
-/

-- ═════════════════════════════════════════════════════════════════════
-- String primitives
-- ═════════════════════════════════════════════════════════════════════

/-- A JS string, embedded as a list of characters. -/
abbrev Str := List Char

/-- Whitespace test used for the regex class denoted by a backslash-s and
for String.prototype.trim; the embedding covers the whitespace characters
that can occur in the repository data (space, tab, LF, CR). -/
def isWsChar (c : Char) : Bool :=
  c == ' ' || c == '\t' || c == '\n' || c == '\r'

/-- Model of String.prototype.toLowerCase (ASCII case mapping). -/
def lowerStr (s : Str) : Str := s.map Char.toLower

/-- Model of String.prototype.trim: drop leading and trailing whitespace. -/
def trimStr (s : Str) : Str :=
  ((s.dropWhile isWsChar).reverse.dropWhile isWsChar).reverse

/-- Model of String.prototype.startsWith: strStartsWith s q is true when
q occurs at the start of s. -/
def strStartsWith : Str → Str → Bool
  | _, [] => true
  | [], _ :: _ => false
  | c :: cs, q :: qs => c == q && strStartsWith cs qs

/-- Model of String.prototype.includes: q occurs somewhere inside s. -/
def strContains : Str → Str → Bool
  | [], q => strStartsWith [] q
  | c :: cs, q => strStartsWith (c :: cs) q || strContains cs q

/-- Code-unit lexicographic three-way comparison; the embedding of the
localeCompare tiebreakers of the source. -/
def strCmp : Str → Str → Ordering
  | [], [] => Ordering.eq
  | [], _ :: _ => Ordering.lt
  | _ :: _, [] => Ordering.gt
  | a :: as, b :: bs =>
    if a < b then Ordering.lt
    else if b < a then Ordering.gt
    else strCmp as bs

/-- Non-strict comparison derived from strCmp. -/
def strLe (a b : Str) : Bool :=
  match strCmp a b with
  | Ordering.gt => false
  | _ => true

/-- localeCompare as an integer result (negative, zero, positive). -/
def localeCmpInt (a b : Str) : Int :=
  match strCmp a b with
  | Ordering.lt => -1
  | Ordering.eq => 0
  | Ordering.gt => 1

-- ═════════════════════════════════════════════════════════════════════
-- Stable sort (model of the stable ECMAScript Array.prototype.sort)
-- ═════════════════════════════════════════════════════════════════════

/-- Insert x in front of the first element b with le x b; later elements
that tie with x therefore stay behind it, which is exactly the stability
guarantee of Array.prototype.sort. -/
def insertLe (le : α → α → Bool) (x : α) : List α → List α
  | [] => [x]
  | b :: bs => if le x b then x :: b :: bs else b :: insertLe le x bs

/-- Stable insertion sort: the model of Array.prototype.sort called with
a consistent comparator cmp, where le a b means cmp a b is at most 0. -/
def stableSortLe (le : α → α → Bool) (l : List α) : List α :=
  l.foldr (insertLe le) []

-- ═════════════════════════════════════════════════════════════════════
-- searchIndex.js — name normalization (normalizeBaseName, nameToSlug)
-- ═════════════════════════════════════════════════════════════════════

/-- Word character for the regex word boundary: letters, digits and
underscore. -/
def isWordChar (c : Char) : Bool :=
  ('a' ≤ c && c ≤ 'z') || ('A' ≤ c && c ≤ 'Z') || ('0' ≤ c && c ≤ '9') || c == '_'

def isDigitChar (c : Char) : Bool := '0' ≤ c && c ≤ '9'

/-- Match a fixed lowercase word case-insensitively at the start of s,
returning the remainder after the word. -/
def stripWordCI : Str → Str → Option Str
  | [], s => some s
  | _ :: _, [] => none
  | w :: ws, c :: cs => if c.toLower == w then stripWordCI ws cs else none

/-- A regex word boundary holds after a match when the next character is
absent or not a word character. -/
def isBoundaryAfter : Str → Bool
  | [] => true
  | r :: _ => !(isWordChar r)

/-- One match attempt of the pattern whitespace-run followed by the given
word (case-insensitive) followed by a word boundary, as in the
normalizeBaseName Blueprint and Recipe regexes; returns the remainder
after the match. -/
def matchWsWordCI (word s : Str) : Option Str :=
  if (s.takeWhile isWsChar).isEmpty then none
  else
    match stripWordCI word (s.dropWhile isWsChar) with
    | some rest => if isBoundaryAfter rest then some rest else none
    | none => none

/-- Fueled global-replace scanner deleting every match of the
whitespace-plus-word pattern, continuing after each match as a global
regex replace does.  The fuel only bounds the number of iterations; the
wrapper passes the string length, which always suffices. -/
def replaceWsWordGo (word : Str) : Nat → Str → Str
  | _, [] => []
  | 0, s => s
  | fuel + 1, c :: cs =>
    match matchWsWordCI word (c :: cs) with
    | some rem => replaceWsWordGo word fuel rem
    | none => c :: replaceWsWordGo word fuel cs

/-- Global deletion of a whitespace-preceded word with boundary, the
model of the replace calls for Blueprint and Recipe in
normalizeBaseName. -/
def replaceWsWordAll (word s : Str) : Str :=
  replaceWsWordGo word s.length s

/-- One match attempt of the Mk pattern: whitespace-run, letter m or M,
letter k or K, a dot, optional whitespace, one or more digits.  Returns
the matched capture (from the m onward, original case) and the remainder
after the match. -/
def matchMkAt (s : Str) : Option (Str × Str) :=
  if (s.takeWhile isWsChar).isEmpty then none
  else
    match s.dropWhile isWsChar with
    | m :: k :: d :: r2 =>
      if (m.toLower == 'm') && (k.toLower == 'k') && (d == '.') then
        let ws2 := r2.takeWhile isWsChar
        let r3 := r2.dropWhile isWsChar
        let digits := r3.takeWhile isDigitChar
        if digits.isEmpty then none
        else some (m :: k :: d :: (ws2 ++ digits), r3.dropWhile isDigitChar)
      else none
    | _ => none

/-- Fueled global-replace scanner for the Mk pattern. -/
def replaceMkGo : Nat → Str → Str
  | _, [] => []
  | 0, s => s
  | fuel + 1, c :: cs =>
    match matchMkAt (c :: cs) with
    | some (_, rem) => replaceMkGo fuel rem
    | none => c :: replaceMkGo fuel cs

/-- Global deletion of every Mk-number marker, the model of the third
replace call of normalizeBaseName. -/
def replaceMkAll (s : Str) : Str := replaceMkGo s.length s

def isRomanIVChar (c : Char) : Bool := c.toLower == 'i' || c.toLower == 'v'

/-- The five Roman numerals accepted by the anchored suffix regex. -/
def isRomanNumeral (u : Str) : Bool :=
  u == ['I'] || u == ['I', 'I'] || u == ['I', 'I', 'I'] || u == ['I', 'V'] || u == ['V']

/-- Anchored match of a whitespace-preceded trailing Roman numeral I to V
(case-insensitive).  Returns the string with suffix and preceding
whitespace removed, together with the uppercased numeral. -/
def romanSuffixSplit (s : Str) : Option (Str × Str) :=
  let rev := s.reverse
  let letters := rev.takeWhile isRomanIVChar
  let rest := rev.dropWhile isRomanIVChar
  let upper := letters.reverse.map Char.toUpper
  if letters.isEmpty then none
  else if !(isRomanNumeral upper) then none
  else
    match rest with
    | [] => none
    | r :: _ =>
      if isWsChar r then some ((rest.dropWhile isWsChar).reverse, upper) else none

/-- The fourth replace call of normalizeBaseName (trailing Roman
numeral). -/
def stripRomanSuffix (s : Str) : Str :=
  match romanSuffixSplit s with
  | some (rem, _) => rem
  | none => s

/-- The captured Roman numeral of the anchored suffix regex, uppercased
as getTierLabel does. -/
def romanSuffixLabel (s : Str) : Option Str :=
  (romanSuffixSplit s).map (fun p => p.2)

/-- Anchored match of a whitespace-preceded trailing digit run.  Returns
the string with suffix and preceding whitespace removed, together with
the digit run. -/
def digitSuffixSplit (s : Str) : Option (Str × Str) :=
  let rev := s.reverse
  let digits := rev.takeWhile isDigitChar
  let rest := rev.dropWhile isDigitChar
  if digits.isEmpty then none
  else
    match rest with
    | [] => none
    | r :: _ =>
      if isWsChar r then some ((rest.dropWhile isWsChar).reverse, digits.reverse) else none

/-- The fifth replace call of normalizeBaseName (trailing bare digits). -/
def stripDigitSuffix (s : Str) : Str :=
  match digitSuffixSplit s with
  | some (rem, _) => rem
  | none => s

/-- The captured digit run of the anchored digit-suffix regex. -/
def digitSuffixLabel (s : Str) : Option Str :=
  (digitSuffixSplit s).map (fun p => p.2)

def blueprintWord : Str := "blueprint".toList

def recipeWord : Str := "recipe".toList

/-- normalizeBaseName from searchIndex.js: strip, in order, every
whitespace-preceded Blueprint and Recipe token, every Mk-number marker,
one trailing Roman numeral, one trailing digit run, then trim. -/
def normalizeBaseName (name : Str) : Str :=
  trimStr (stripDigitSuffix (stripRomanSuffix (replaceMkAll
    (replaceWsWordAll recipeWord (replaceWsWordAll blueprintWord name)))))

def isSlugChar (c : Char) : Bool := ('a' ≤ c && c ≤ 'z') || ('0' ≤ c && c ≤ '9')

/-- Fueled scanner replacing every run of non-alphanumeric characters
with a single hyphen. -/
def collapseGo : Nat → Str → Str
  | _, [] => []
  | 0, s => s
  | fuel + 1, c :: cs =>
    if isSlugChar c then c :: collapseGo fuel cs
    else '-' :: collapseGo fuel (cs.dropWhile (fun d => !(isSlugChar d)))

def collapseNonAlnum (s : Str) : Str := collapseGo s.length s

/-- Drop leading and trailing hyphen runs. -/
def trimHyphens (s : Str) : Str :=
  ((s.dropWhile (fun c => c == '-')).reverse.dropWhile (fun c => c == '-')).reverse

/-- nameToSlug from searchIndex.js: lowercase, collapse runs of
non-alphanumeric characters to single hyphens, strip outer hyphens. -/
def nameToSlug (name : Str) : Str :=
  trimHyphens (collapseNonAlnum (lowerStr name))

-- ═════════════════════════════════════════════════════════════════════
-- searchIndex.js — scoring and search
-- ═════════════════════════════════════════════════════════════════════

/-- The flattened search-index entry (the fields relevant to ranking). -/
structure IndexEntry where
  id : Str
  name : Str
  type : Str
deriving DecidableEq

/-- The index state machine of searchIndex.js. -/
inductive IndexState
  | idle
  | loading
  | ready
  | error
deriving DecidableEq

/-- Fueled embedding of the anyWordStartsWith loop of searchIndex.js:
the cursor wordStart is the start of the current suffix; a word runs to
the next space; the word must be at least as long as the query and the
full string must continue with the query at the cursor.  The fuel only
bounds the number of loop iterations. -/
def anyWordGo (q : Str) : Nat → Str → Bool
  | _, [] => false
  | 0, _ :: _ => false
  | fuel + 1, c :: cs =>
    (decide (q.length ≤ ((c :: cs).takeWhile (fun d => !(d == ' '))).length)
        && strStartsWith (c :: cs) q)
      ||
    (match (c :: cs).dropWhile (fun d => !(d == ' ')) with
      | [] => false
      | _ :: tl => anyWordGo q fuel tl)

/-- anyWordStartsWith from searchIndex.js. -/
def anyWordStartsWith (nameLower queryLower : Str) : Bool :=
  anyWordGo queryLower nameLower.length nameLower

/-- scoreMatch from searchIndex.js: 100 exact, 75 prefix, 50 word
prefix, 25 substring, 0 otherwise. -/
def scoreMatch (nameLower queryLower : Str) : Nat :=
  if nameLower = queryLower then 100
  else if strStartsWith nameLower queryLower then 75
  else if anyWordStartsWith nameLower queryLower then 50
  else if strContains nameLower queryLower then 25
  else 0

/-- The sort comparator of search, as the non-strict order fed to the
stable sort: a stays before b when the comparator value of the source
(score difference, then localeCompare of the names) is at most zero. -/
def searchComparator (a b : IndexEntry × Nat) : Bool :=
  if a.2 = b.2 then strLe a.1.name b.1.name else decide (b.2 < a.2)

/-- The candidate pool of search: the whole index, or the entries of one
type when a type filter is given. -/
def searchPool (index : List IndexEntry) (typeFilter : Option Str) : List IndexEntry :=
  match typeFilter with
  | some t => index.filter (fun e => e.type == t)
  | none => index

/-- The scored pool of search: each pool entry whose lowercased name
scores positively against the query, paired with its score. -/
def searchScored (pool : List IndexEntry) (q : Str) : List (IndexEntry × Nat) :=
  pool.filterMap (fun e =>
    if 0 < scoreMatch (lowerStr e.name) q then some (e, scoreMatch (lowerStr e.name) q)
    else none)

/-- search from searchIndex.js.  The module state, index and clock-free
inputs are explicit parameters; the console warnings are not modelled.
A non-ready state returns empty; the trimmed lowercased query must have
at least two characters; matches are scored, stably sorted under the
score-then-name comparator, truncated and unwrapped. -/
def search (st : IndexState) (index : List IndexEntry) (query : Str)
    (limit : Nat) (typeFilter : Option Str) : List IndexEntry :=
  if st ≠ IndexState.ready then []
  else if (lowerStr (trimStr query)).length < 2 then []
  else
    ((stableSortLe searchComparator
        (searchScored (searchPool index typeFilter) (lowerStr (trimStr query)))).take
      limit).map (fun r => r.1)

-- Specification-side definitions for claim C1, written from the words
-- of the specification rather than from the code.

/-- Fueled splitting of a string into its space-delimited words
(specification side). -/
def wordsGo : Nat → Str → List Str
  | _, [] => []
  | 0, _ :: _ => []
  | fuel + 1, c :: cs =>
    match (c :: cs).dropWhile (fun d => !(d == ' ')) with
    | [] => [(c :: cs).takeWhile (fun d => !(d == ' '))]
    | _ :: tl => (c :: cs).takeWhile (fun d => !(d == ' ')) :: wordsGo fuel tl

/-- The space-delimited words of a name (specification side). -/
def wordsOf (s : Str) : List Str := wordsGo s.length s

/-- The match tier of the specification: 0 exact equality, 1 prefix,
2 some word of the name has the query as a prefix, 3 substring anywhere,
none otherwise. -/
def specTier (nameLower q : Str) : Option Nat :=
  if nameLower = q then some 0
  else if strStartsWith nameLower q then some 1
  else if (wordsOf nameLower).any (fun w => strStartsWith w q) then some 2
  else if strContains nameLower q then some 3
  else none

/-- The tier encoded by a scoreMatch value. -/
def scoreToTier (s : Nat) : Option Nat :=
  if s = 100 then some 0
  else if s = 75 then some 1
  else if s = 50 then some 2
  else if s = 25 then some 3
  else none

/-- The specification-side rank of an entry for a query (4 = excluded). -/
def specTierRank (e : IndexEntry) (q : Str) : Nat :=
  match specTier (lowerStr e.name) q with
  | some t => t
  | none => 4

-- ═════════════════════════════════════════════════════════════════════
-- itemPage.js — tier labels and within-group sorting
-- ═════════════════════════════════════════════════════════════════════

/-- Scanner for the word-boundary test regexes of getTierLabel: true when
the word occurs (case-insensitively) with a word boundary on both sides.
The Boolean argument records whether the previous character was a word
character (no boundary at the match start in that case). -/
def testWordFrom (word : Str) : Bool → Str → Bool
  | _, [] => false
  | prevIsWord, c :: cs =>
    (if prevIsWord then false
     else
       match stripWordCI word (c :: cs) with
       | some rest => isBoundaryAfter rest
       | none => false)
      || testWordFrom word (isWordChar c) cs

/-- Case-insensitive whole-word containment test. -/
def testWordCI (word s : Str) : Bool := testWordFrom word false s

/-- First match of the unanchored Mk pattern, returning the captured
marker in its original case (the label used by getTierLabel). -/
def findMkLabel : Str → Option Str
  | [] => none
  | c :: cs =>
    match matchMkAt (c :: cs) with
    | some (cap, _) => some cap
    | none => findMkLabel cs

/-- getTierLabel from itemPage.js: Blueprint and Recipe word tests, then
the first Mk marker, then an anchored Roman-numeral suffix (uppercased),
then an anchored digit suffix. -/
def getTierLabel (itemName : Str) : Option Str :=
  if testWordCI blueprintWord itemName then some "Blueprint".toList
  else if testWordCI recipeWord itemName then some "Recipe".toList
  else
    match findMkLabel itemName with
    | some cap => some cap
    | none =>
      match romanSuffixLabel itemName with
      | some u => some u
      | none =>
        match digitSuffixLabel itemName with
        | some d => some d
        | none => none

/-- TIER_ORDER from itemPage.js. -/
def TIER_ORDER : List Str :=
  ["I", "II", "III", "IV", "V", "1", "2", "3", "4", "5", "Blueprint", "Recipe"].map
    String.toList

/-- Array.prototype.indexOf on TIER_ORDER, with absence as none. -/
def tierOrderIdx (l : Str) : Option Nat :=
  TIER_ORDER.findIdx? (fun t => t == l)

/-- A group member as far as the tier sort is concerned. -/
structure Item where
  id : Str
  name : Str
deriving DecidableEq

/-- The comparator body of sortItemsByTier from itemPage.js. -/
def compareItemsByTier (a b : Item) : Int :=
  match getTierLabel a.name, getTierLabel b.name with
  | none, none => localeCmpInt a.name b.name
  | none, some _ => -1
  | some _, none => 1
  | some la, some lb =>
    match tierOrderIdx la, tierOrderIdx lb with
    | some ia, some ib => (ia : Int) - (ib : Int)
    | some _, none => -1
    | none, some _ => 1
    | none, none => localeCmpInt la lb

/-- sortItemsByTier from itemPage.js: the stable sort under the
comparator above. -/
def sortItemsByTier (items : List Item) : List Item :=
  stableSortLe (fun a b => decide (compareItemsByTier a b ≤ 0)) items

-- Specification-side ordering key for the amended claim C3.

/-- Sort key of a member: class 0 for no tier label (tie on raw name),
class 1 for a label listed in TIER_ORDER (ordered by list position),
class 2 for any other label such as an Mk marker (tie on the label). -/
def tierSortKey (a : Item) : Nat × Nat × Str :=
  match getTierLabel a.name with
  | none => (0, 0, a.name)
  | some l =>
    match tierOrderIdx l with
    | some i => (1, i, [])
    | none => (2, 0, l)

/-- Lexicographic order on sort keys. -/
def keyLe (x y : Nat × Nat × Str) : Bool :=
  if x.1 < y.1 then true
  else if y.1 < x.1 then false
  else if x.2.1 < y.2.1 then true
  else if y.2.1 < x.2.1 then false
  else strLe x.2.2 y.2.2

/-- The specification-side member order of the amended claim C3. -/
def tierSpecLe (a b : Item) : Bool := keyLe (tierSortKey a) (tierSortKey b)

-- ═════════════════════════════════════════════════════════════════════
-- metaforgeApi.js — cache layer (writeStore, getCache)
-- ═════════════════════════════════════════════════════════════════════

/-- A stored cache entry: data, write time and time to live. -/
structure CacheEntry (α : Type) where
  data : α
  cachedAt : Int
  ttl : Int

/-- The backing store, one optional entry per key.  The JSON round trip
through localStorage and the in-memory fallback map are both modelled as
a direct key-value store. -/
def Store (α : Type) : Type := Str → Option (CacheEntry α)

/-- writeStore from metaforgeApi.js, with the wall clock explicit. -/
def writeStore (store : Store α) (key : Str) (data : α) (ttl now : Int) : Store α :=
  fun k => if k = key then some ⟨data, now, ttl⟩ else store k

/-- getCache from metaforgeApi.js: absent entries and entries whose age
strictly exceeds their ttl read as absent; fresh entries return the data
and its age. -/
def getCache (store : Store α) (key : Str) (now : Int) : Option (α × Int) :=
  match store key with
  | none => none
  | some e =>
    let ageMs := now - e.cachedAt
    if ageMs > e.ttl then none else some (e.data, ageMs)

-- ═════════════════════════════════════════════════════════════════════
-- metaforgeApi.js — pagination (fetchAllPages, both variants)
-- ═════════════════════════════════════════════════════════════════════

/-- A page envelope: the data array and the pagination signals, each
optional because the source reads them through optional chaining. -/
structure ApiPage (ρ : Type) where
  data : Option (List ρ)
  totalPages : Option Nat
  hasNextPage : Option Bool

/-- fetchAllPages, totalPages variant: read totalPages from page one
(defaulting to 1), then fetch pages 2 .. totalPages in order and
concatenate the data arrays. -/
def fetchAllPagesTotal (provider : Nat → ApiPage ρ) : List ρ :=
  let first := provider 1
  let totalPages := first.totalPages.getD 1
  (List.range' 2 (totalPages - 1)).foldl
    (fun acc page => acc ++ ((provider page).data.getD [])) (first.data.getD [])

/-- fetchAllPages, hasNextPage variant: the while loop, with fuel
bounding the number of iterations (the loop itself has no bound and
relies on the provider eventually answering hasNextPage false). -/
def fetchAllPagesNextGo (provider : Nat → ApiPage ρ) : Nat → Nat → List ρ
  | 0, _ => []
  | fuel + 1, page =>
    let raw := provider page
    if raw.hasNextPage.getD false then
      (raw.data.getD []) ++ fetchAllPagesNextGo provider fuel (page + 1)
    else raw.data.getD []

/-- fetchAllPages, hasNextPage variant, started at page 1. -/
def fetchAllPagesNext (provider : Nat → ApiPage ρ) (fuel : Nat) : List ρ :=
  fetchAllPagesNextGo provider fuel 1

-- ═════════════════════════════════════════════════════════════════════
-- metaforgeApi.js — error taxonomy (MetaForgeError, fetchUrl)
-- ═════════════════════════════════════════════════════════════════════

/-- The structured error thrown by the fetch service. -/
structure MetaForgeError where
  message : Str
  status : Nat
  endpoint : Str
  retryable : Bool
deriving DecidableEq

/-- The MetaForgeError constructor: retryable is derived from the status
exactly as in the source (500 or 0). -/
def mkMetaForgeError (message : Str) (status : Nat) (endpoint : Str) : MetaForgeError :=
  ⟨message, status, endpoint, status == 500 || status == 0⟩

/-- Decimal rendering of a number for interpolated messages. -/
def natStr (n : Nat) : Str := (Nat.repr n).toList

/-- The generic fallback message for unexpected HTTP statuses. -/
def genericHttpMessage (status : Nat) (ep : Str) : Str :=
  "Unexpected HTTP ".toList ++ natStr status ++ " from ".toList ++ ep ++ ".".toList

/-- The ERROR_MESSAGES table of the hasNextPage-variant service: specific
text for 400, 404, 413 and 500. -/
def errorMessagesHasNextVariant (status : Nat) (ep : Str) : Option Str :=
  if status = 400 then some ("Bad request to ".toList ++ ep ++ " — check query parameters.".toList)
  else if status = 404 then some ("Endpoint not found: ".toList ++ ep ++ " — the API may have changed.".toList)
  else if status = 413 then some ("Request payload too large for ".toList ++ ep ++ ".".toList)
  else if status = 500 then some ("MetaForge server error on ".toList ++ ep ++ " — try again shortly.".toList)
  else none

/-- The msgs table of the totalPages-variant service: specific text for
400, 404 and 500 only. -/
def errorMessagesTotalVariant (status : Nat) (ep : Str) : Option Str :=
  if status = 400 then some ("Bad request to ".toList ++ ep ++ " — check query parameters.".toList)
  else if status = 404 then some ("Endpoint not found: ".toList ++ ep ++ " — the API may have changed.".toList)
  else if status = 500 then some ("MetaForge server error on ".toList ++ ep ++ " — try again shortly.".toList)
  else none

/-- Network-failure message of the hasNextPage-variant service. -/
def networkMessageHasNextVariant (ep msg : Str) : Str :=
  "Network error reaching MetaForge (".toList ++ ep ++ "): ".toList ++ msg

/-- Network-failure message of the totalPages-variant service. -/
def networkMessageTotalVariant (ep msg : Str) : Str :=
  "Network error (".toList ++ ep ++ "): ".toList ++ msg

/-- Unparseable-body message (identical in both variants). -/
def invalidJsonMessage (ep : Str) : Str :=
  "Invalid JSON response from ".toList ++ ep ++ ".".toList

/-- What a fetch call can produce: a network failure with the underlying
error message, or a response with an HTTP status and an optional parsed
JSON body (none models a body the JSON parser rejects). -/
inductive FetchOutcome (J : Type)
  | netFail (errMsg : Str)
  | resp (status : Nat) (body : Option J)

/-- Response.ok of the fetch API: status in the 2xx range. -/
def responseOk (status : Nat) : Bool := 200 ≤ status && status < 300

/-- The shared shape of fetchUrl: network failure throws status 0; a
non-2xx response throws with the table message or the generic fallback;
an unparseable body on a 2xx response throws with the response status. -/
def fetchUrlModel (msgs : Nat → Str → Option Str) (netMsg : Str → Str → Str)
    (o : FetchOutcome J) (pathLabel : Str) : Except MetaForgeError J :=
  match o with
  | FetchOutcome.netFail m => Except.error (mkMetaForgeError (netMsg pathLabel m) 0 pathLabel)
  | FetchOutcome.resp status body =>
    if responseOk status then
      match body with
      | some j => Except.ok j
      | none => Except.error (mkMetaForgeError (invalidJsonMessage pathLabel) status pathLabel)
    else
      Except.error (mkMetaForgeError
        ((msgs status pathLabel).getD (genericHttpMessage status pathLabel)) status pathLabel)

/-- fetchUrl of the hasNextPage-variant service. -/
def fetchUrlHasNextVariant (o : FetchOutcome J) (pathLabel : Str) : Except MetaForgeError J :=
  fetchUrlModel errorMessagesHasNextVariant networkMessageHasNextVariant o pathLabel

/-- fetchUrl of the totalPages-variant service (the lines cited by the
specification). -/
def fetchUrlTotalVariant (o : FetchOutcome J) (pathLabel : Str) : Except MetaForgeError J :=
  fetchUrlModel errorMessagesTotalVariant networkMessageTotalVariant o pathLabel

-- ═════════════════════════════════════════════════════════════════════
-- Concurrency models: cachedFetch (metaforgeApi.js) and fetchArdbItems
-- (ardbApi.js) under cooperative single-threaded interleaving
-- ═════════════════════════════════════════════════════════════════════

/-- Shared module state seen by cachedFetch for one dataset key: the
cache entry for that key and a count of network requests issued. -/
structure MFShared (α : Type) where
  cache : Option α
  networkCalls : Nat
deriving DecidableEq

/-- The phases of one cachedFetch call: before the cache check, suspended
at the awaited fetcher, or finished. -/
inductive MFPhase (α : Type)
  | start
  | awaitingFetch
  | finished (d : α)
deriving DecidableEq

/-- One cooperative step of a cachedFetch call (forceRefresh false).
From start: a fresh cache hit returns it; otherwise the fetcher is
invoked (one network request) and the call suspends at the await.  On
resume the result is written to the store and returned.  cachedFetch
consults no in-flight registry: the decision to fetch depends only on
the cache at the moment the call runs. -/
def cachedFetchStep (fetched : α) : MFPhase α → MFShared α → MFPhase α × MFShared α
  | MFPhase.start, s =>
    match s.cache with
    | some d => (MFPhase.finished d, s)
    | none => (MFPhase.awaitingFetch, ⟨s.cache, s.networkCalls + 1⟩)
  | MFPhase.awaitingFetch, s => (MFPhase.finished fetched, ⟨some fetched, s.networkCalls⟩)
  | MFPhase.finished d, s => (MFPhase.finished d, s)

/-- Two cachedFetch calls for the same dataset, the second issued while
the first network request is still in flight: each call runs to its
suspension point before either response arrives, then both resume.
Returns the number of network requests issued. -/
def cachedFetchConcurrentPair (cache0 : Option α) (fetched : α) : Nat :=
  let s0 : MFShared α := ⟨cache0, 0⟩
  let r1 := cachedFetchStep fetched MFPhase.start s0
  let r2 := cachedFetchStep fetched MFPhase.start r1.2
  let r3 := cachedFetchStep fetched r1.1 r2.2
  let r4 := cachedFetchStep fetched r2.1 r3.2
  r4.2.networkCalls

/-- Shared module state of ardbApi.js for the items list: the in-memory
list cache, whether the in-flight promise field is set, and a count of
network requests issued.  The localStorage layer is empty or stale in
the scenarios considered. -/
structure ArdbShared (α : Type) where
  listCache : Option α
  listPromiseSet : Bool
  networkCalls : Nat
deriving DecidableEq

/-- The phases of one fetchArdbItems call. -/
inductive ArdbPhase
  | start
  | awaitingFetch
  | joinedPromise
  | finishedOk
  | finishedErr
deriving DecidableEq

/-- One cooperative step of a fetchArdbItems call (forceRefresh false,
no fresh localStorage entry).  From start: a filled memory cache returns
at once; a set in-flight promise is returned to the caller (no new
network request); otherwise the async body runs synchronously to its
awaited fetch (one network request), the promise field is set and the
call suspends.  On resume, success stores the list and clears the
promise field; failure throws before the line that clears the field, so
the field stays set. -/
def fetchArdbItemsStep (ok : Bool) (fetched : α) :
    ArdbPhase → ArdbShared α → ArdbPhase × ArdbShared α
  | ArdbPhase.start, s =>
    if s.listCache.isSome then (ArdbPhase.finishedOk, s)
    else if s.listPromiseSet then (ArdbPhase.joinedPromise, s)
    else (ArdbPhase.awaitingFetch, ⟨s.listCache, true, s.networkCalls + 1⟩)
  | ArdbPhase.awaitingFetch, s =>
    if ok then (ArdbPhase.finishedOk, ⟨some fetched, false, s.networkCalls⟩)
    else (ArdbPhase.finishedErr, s)
  | ph, s => (ph, s)

/-- Two fetchArdbItems calls, the second issued while the first network
request is in flight; returns the number of network requests issued. -/
def fetchArdbItemsConcurrentPair (fetched : α) : Nat :=
  let s0 : ArdbShared α := ⟨none, false, 0⟩
  let r1 := fetchArdbItemsStep true fetched ArdbPhase.start s0
  let r2 := fetchArdbItemsStep true fetched ArdbPhase.start r1.2
  let r3 := fetchArdbItemsStep true fetched r1.1 r2.2
  let r4 := fetchArdbItemsStep true fetched r2.1 r3.2
  r4.2.networkCalls

/-- One fetchArdbItems call whose network request fails; returns the
shared state after the rejection settles. -/
def fetchArdbItemsFailureState (fetched : α) : ArdbShared α :=
  let s0 : ArdbShared α := ⟨none, false, 0⟩
  let r1 := fetchArdbItemsStep false fetched ArdbPhase.start s0
  let r2 := fetchArdbItemsStep false fetched r1.1 r1.2
  r2.2

-- ═════════════════════════════════════════════════════════════════════
-- ardbApi.js — name cross-reference (buildArdbCrossRef, lookupArdbByName)
-- ═════════════════════════════════════════════════════════════════════

/-- A secondary-provider list record (the fields relevant to the join). -/
structure ArdbItem where
  id : Str
  name : Str
deriving DecidableEq

/-- The index key: trim, then lowercase, as in the source. -/
def ardbKey (name : Str) : Str := lowerStr (trimStr name)

/-- The cross-reference map, as a partial function from keys to records. -/
def ArdbMap : Type := Str → Option ArdbItem

/-- Map.prototype.set: overwrite the binding for one key. -/
def ardbMapSet (m : ArdbMap) (k : Str) (v : ArdbItem) : ArdbMap :=
  fun q => if q = k then some v else m q

/-- buildArdbCrossRef from ardbApi.js: walk the items list in order and
index each record with a truthy (non-empty) name under its key; later
records overwrite earlier ones. -/
def buildArdbCrossRef (items : List ArdbItem) : ArdbMap :=
  items.foldl
    (fun m it => if it.name.isEmpty then m else ardbMapSet m (ardbKey it.name) it)
    (fun _ => none)

/-- lookupArdbByName from ardbApi.js: a falsy (empty) name short-circuits
to absent, otherwise the map is consulted at the key of the name. -/
def lookupArdbByName (name : Str) (m : ArdbMap) : Option ArdbItem :=
  if name.isEmpty then none else m (ardbKey name)

/-- Specification-side selector for claim C8: the last record of the list
whose trimmed lowercased display name equals the trimmed lowercased
query. -/
def specLastExactMatch (items : List ArdbItem) (name : Str) : Option ArdbItem :=
  List.find? (fun r => ardbKey r.name == ardbKey name) items.reverse

-- ═════════════════════════════════════════════════════════════════════
-- listPages.js — category bucketing (BUCKET_MAP, getBucket)
-- ═════════════════════════════════════════════════════════════════════

/-- BUCKET_MAP from listPages.js. -/
def BUCKET_MAP : List (Str × Str) :=
  [("weapon", "Weapons"),
   ("modification", "Attachments"),
   ("mods", "Attachments"),
   ("quick use", "Consumables"),
   ("consumable", "Consumables"),
   ("topside material", "Materials"),
   ("refined material", "Materials"),
   ("basic material", "Materials"),
   ("advanced material", "Materials"),
   ("material", "Materials"),
   ("blueprint", "Blueprints"),
   ("shield", "Armor")].map (fun p => (p.1.toList, p.2.toList))

/-- BUCKET_LABELS from listPages.js. -/
def BUCKET_LABELS : List Str :=
  ["Weapons", "Attachments", "Consumables", "Materials", "Blueprints", "Armor"].map
    String.toList

/-- getBucket from listPages.js, with the seen-set explicit.  Returns the
bucket, the updated seen-set and the log entries emitted by this call.
A falsy (empty) label returns absent at once without logging; an
unmapped label is logged and remembered only if not seen before. -/
def getBucket (itemType : Str) (seen : List Str) : Option Str × List Str × List Str :=
  if itemType.isEmpty then (none, seen, [])
  else
    let key := trimStr (lowerStr itemType)
    let bucket := List.lookup key BUCKET_MAP
    if bucket.isNone && !(seen.contains itemType) then (none, itemType :: seen, [itemType])
    else (bucket, seen, [])

/-- The observable outcome of a session of getBucket calls. -/
structure BucketRun where
  results : List (Option Str)
  logs : List Str
  seen : List Str
deriving DecidableEq

/-- Run a sequence of getBucket lookups left to right, threading the
seen-set and collecting results and log entries. -/
def runBuckets : List Str → List Str → BucketRun
  | [], seen => ⟨[], [], seen⟩
  | l :: ls, seen =>
    let stepRes := getBucket l seen
    let rest := runBuckets ls stepRes.2.1
    ⟨stepRes.1 :: rest.results, stepRes.2.2 ++ rest.logs, rest.seen⟩

-- ═════════════════════════════════════════════════════════════════════
-- Concrete inputs used by witnesses and counterexamples
-- ═════════════════════════════════════════════════════════════════════

def tempestEntry : IndexEntry :=
  ⟨"tempest".toList, "Tempest".toList, "Item".toList⟩

def tempestBlueprintEntry : IndexEntry :=
  ⟨"tempest-blueprint".toList, "Tempest Blueprint".toList, "Item".toList⟩

def advancedTempestCoreEntry : IndexEntry :=
  ⟨"advanced-tempest-core".toList, "Advanced Tempest Core".toList, "Item".toList⟩

/-- The three worked entries of the specification, deliberately listed
out of the expected result order. -/
def tempestIndex : List IndexEntry :=
  [advancedTempestCoreEntry, tempestBlueprintEntry, tempestEntry]

def itemX2 : Item := ⟨"x-2".toList, "X 2".toList⟩

def itemXIII : Item := ⟨"x-iii".toList, "X III".toList⟩

def itemXMk2 : Item := ⟨"x-mk-2".toList, "X Mk. 2".toList⟩

def itemXBlueprint : Item := ⟨"x-blueprint".toList, "X Blueprint".toList⟩

/-- A name carrying a stacked tier suffix: a trailing digit after a
Roman numeral. -/
def stackedTierName : Str := "X III 2".toList

def tempestBlueprintName : Str := "Tempest Blueprint".toList

/-- A three-page provider with page sizes 100, 100 and 27, carrying
its records as consecutive numbers so that order is observable. -/
def pagedProvider3 : Nat → ApiPage Nat := fun p =>
  if p = 1 then ⟨some (List.range' 0 100), some 3, some true⟩
  else if p = 2 then ⟨some (List.range' 100 100), some 3, some true⟩
  else if p = 3 then ⟨some (List.range' 200 27), some 3, some false⟩
  else ⟨some [], some 3, some false⟩

/-- A secondary record whose display name is a single space (truthy in
JS, but trimming to the empty string). -/
def ardbBlankNameRecord : ArdbItem := ⟨"blank".toList, [' ']⟩

/-- A secondary record whose display name is empty (falsy in JS). -/
def ardbEmptyNameRecord : ArdbItem := ⟨"empty".toList, []⟩

def ardbTempestOld : ArdbItem := ⟨"old".toList, "Tempest ".toList⟩

def ardbTempestNew : ArdbItem := ⟨"new".toList, " tempest".toList⟩

-- ═════════════════════════════════════════════════════════════════════
-- Lemmas about the string primitives
-- ═════════════════════════════════════════════════════════════════════

theorem strStartsWith_le_length :
    ∀ (s q : Str), strStartsWith s q = true → q.length ≤ s.length := by
  intro s
  induction s with
  | nil =>
    intro q h
    cases q with
    | nil => simp
    | cons a as => simp [strStartsWith] at h
  | cons c cs ih =>
    intro q h
    cases q with
    | nil => simp
    | cons a as =>
      simp only [strStartsWith, Bool.and_eq_true] at h
      have := ih as h.2
      simp only [List.length_cons]
      omega

theorem strStartsWith_append (q w r : Str) (h : q.length ≤ w.length) :
    strStartsWith (w ++ r) q = strStartsWith w q := by
  induction q generalizing w with
  | nil => cases w <;> simp [strStartsWith]
  | cons a as ih =>
    cases w with
    | nil => simp at h
    | cons b bs =>
      rw [List.cons_append]
      simp only [strStartsWith]
      rw [ih bs (by simp only [List.length_cons] at h; omega)]

theorem startsWith_word_guard (q w r : Str) :
    (decide (q.length ≤ w.length) && strStartsWith (w ++ r) q) = strStartsWith w q := by
  by_cases h : q.length ≤ w.length
  · simp [h, strStartsWith_append q w r h]
  · have hw : strStartsWith w q = false := by
      cases hss : strStartsWith w q
      · rfl
      · exact absurd (strStartsWith_le_length w q hss) h
    simp [h, hw]

theorem strCmp_swap (a b : Str) : (strCmp a b).swap = strCmp b a := by
  induction a generalizing b with
  | nil => cases b <;> rfl
  | cons x xs ih =>
    cases b with
    | nil => rfl
    | cons y ys =>
      simp only [strCmp]
      by_cases h1 : x < y
      · have h2 : ¬ y < x := lt_asymm h1
        simp [h1, h2, Ordering.swap]
      · by_cases h2 : y < x
        · simp [h1, h2, Ordering.swap]
        · simp [h1, h2, ih ys]

theorem strLe_total (a b : Str) : strLe a b || strLe b a := by
  have h := strCmp_swap a b
  cases hc : strCmp a b with
  | lt => simp [strLe, hc]
  | eq => simp [strLe, hc]
  | gt =>
    have : strCmp b a = Ordering.lt := by rw [← h, hc]; rfl
    simp [strLe, hc, this]

theorem strLe_trans : ∀ (a b c : Str),
    strLe a b = true → strLe b c = true → strLe a c = true := by
  intro a
  induction a with
  | nil =>
    intro b c _ _
    cases c <;> simp [strLe, strCmp]
  | cons x xs ih =>
    intro b c h1 h2
    cases b with
    | nil => simp [strLe, strCmp] at h1
    | cons y ys =>
      cases c with
      | nil => simp [strLe, strCmp] at h2
      | cons z zs =>
        simp only [strLe, strCmp] at h1 h2 ⊢
        by_cases hxy : x < y
        · by_cases hyz : y < z
          · simp [lt_trans hxy hyz]
          · by_cases hzy : z < y
            · simp [hyz, hzy] at h2
            · have hyz' : y = z := le_antisymm (not_lt.mp hzy) (not_lt.mp hyz)
              subst hyz'
              simp [hxy]
        · by_cases hyx : y < x
          · simp [hxy, hyx] at h1
          · have hxy' : x = y := le_antisymm (not_lt.mp hyx) (not_lt.mp hxy)
            subst hxy'
            by_cases hyz : x < z
            · simp [hyz]
            · by_cases hzy : z < x
              · simp [hyz, hzy] at h2
              · have hxz : x = z := le_antisymm (not_lt.mp hzy) (not_lt.mp hyz)
                subst hxz
                simp only [lt_irrefl, if_false] at h1 h2 ⊢
                exact ih ys zs h1 h2

-- ═════════════════════════════════════════════════════════════════════
-- Lemmas about the stable sort
-- ═════════════════════════════════════════════════════════════════════

theorem insertLe_perm (le : α → α → Bool) (x : α) (l : List α) :
    (insertLe le x l).Perm (x :: l) := by
  induction l with
  | nil => exact List.Perm.refl _
  | cons b bs ih =>
    simp only [insertLe]
    by_cases h : le x b
    · simp only [h, if_true]
      exact List.Perm.refl _
    · simp only [h, if_false]
      exact (ih.cons b).trans (List.Perm.swap x b bs)

theorem stableSortLe_perm (le : α → α → Bool) (l : List α) :
    (stableSortLe le l).Perm l := by
  induction l with
  | nil => exact List.Perm.refl _
  | cons a as ih =>
    simp only [stableSortLe, List.foldr] at ih ⊢
    exact (insertLe_perm le a _).trans (ih.cons a)

theorem mem_insertLe (le : α → α → Bool) (x y : α) (l : List α) :
    y ∈ insertLe le x l ↔ y = x ∨ y ∈ l := by
  rw [(insertLe_perm le x l).mem_iff]
  simp

theorem pairwise_insertLe (le : α → α → Bool)
    (htrans : ∀ a b c, le a b = true → le b c = true → le a c = true)
    (htotal : ∀ a b, le a b || le b a)
    (x : α) (l : List α) (hl : l.Pairwise (fun a b => le a b = true)) :
    (insertLe le x l).Pairwise (fun a b => le a b = true) := by
  induction l with
  | nil => simp [insertLe]
  | cons b bs ih =>
    rcases List.pairwise_cons.mp hl with ⟨hb, hbs⟩
    simp only [insertLe]
    by_cases h : le x b
    · simp only [h, if_true]
      refine List.pairwise_cons.mpr ⟨?_, hl⟩
      intro y hy
      rcases List.mem_cons.mp hy with rfl | hy
      · exact h
      · exact htrans x b y h (hb y hy)
    · simp only [h, if_false]
      refine List.pairwise_cons.mpr ⟨?_, ih hbs⟩
      intro y hy
      rcases (mem_insertLe le x y bs).mp hy with heq | hy
      · subst heq
        have hxb : le y b = false := by
          cases hv : le y b
          · rfl
          · exact absurd hv h
        have htot := htotal y b
        rw [hxb] at htot
        simpa using htot
      · exact hb y hy

theorem stableSortLe_pairwise (le : α → α → Bool)
    (htrans : ∀ a b c, le a b = true → le b c = true → le a c = true)
    (htotal : ∀ a b, le a b || le b a)
    (l : List α) :
    (stableSortLe le l).Pairwise (fun a b => le a b = true) := by
  induction l with
  | nil => simp [stableSortLe]
  | cons a as ih => exact pairwise_insertLe le htrans htotal a _ ih

-- ═════════════════════════════════════════════════════════════════════
-- The word-prefix scanner agrees with word splitting
-- ═════════════════════════════════════════════════════════════════════

theorem anyWordGo_eq_any (q : Str) :
    ∀ (fuel : Nat) (name : Str), name.length ≤ fuel →
      anyWordGo q fuel name = (wordsGo fuel name).any (fun w => strStartsWith w q) := by
  intro fuel
  induction fuel with
  | zero =>
    intro name h
    cases name with
    | nil => rfl
    | cons c cs => simp at h
  | succ fuel ih =>
    intro name h
    cases name with
    | nil => rfl
    | cons c cs =>
      simp only [anyWordGo, wordsGo]
      rcases hd : (c :: cs).dropWhile (fun d => !(d == ' ')) with _ | ⟨s', tl⟩
      · have hsplit := List.takeWhile_append_dropWhile (fun d => !(d == ' ')) (c :: cs)
        rw [hd, List.append_nil] at hsplit
        rw [hsplit]
        have hguard := startsWith_word_guard q (c :: cs) []
        rw [List.append_nil] at hguard
        rw [hguard]
        simp
      · have hsplit := List.takeWhile_append_dropWhile (fun d => !(d == ' ')) (c :: cs)
        rw [hd] at hsplit
        have hguard := startsWith_word_guard q ((c :: cs).takeWhile (fun d => !(d == ' ')))
          (s' :: tl)
        rw [hsplit] at hguard
        rw [hguard]
        have hlen : tl.length ≤ fuel := by
          have hle := (List.dropWhile_suffix (l := c :: cs) (fun d => !(d == ' '))).length_le
          rw [hd] at hle
          simp only [List.length_cons] at hle h
          omega
        simp [ih tl hlen]

theorem anyWordStartsWith_eq_any (n q : Str) :
    anyWordStartsWith n q = (wordsOf n).any (fun w => strStartsWith w q) :=
  anyWordGo_eq_any q n.length n le_rfl

-- ═════════════════════════════════════════════════════════════════════
-- scoreMatch against the specification tiers
-- ═════════════════════════════════════════════════════════════════════

theorem specTier_eq (n q : Str) : specTier n q = scoreToTier (scoreMatch n q) := by
  have hw := anyWordStartsWith_eq_any n q
  by_cases h1 : n = q <;>
    by_cases h2 : strStartsWith n q = true <;>
      by_cases h3 : anyWordStartsWith n q = true <;>
        by_cases h4 : strContains n q = true <;>
          simp [specTier, scoreMatch, scoreToTier, h1, h2, h3, h4, ← hw]

theorem scoreMatch_mem (n q : Str) :
    scoreMatch n q = 0 ∨ scoreMatch n q = 25 ∨ scoreMatch n q = 50 ∨
      scoreMatch n q = 75 ∨ scoreMatch n q = 100 := by
  unfold scoreMatch
  split_ifs <;> simp

theorem scoreToTier_isSome_iff_pos (n q : Str) :
    (scoreToTier (scoreMatch n q)).isSome = decide (0 < scoreMatch n q) := by
  rcases scoreMatch_mem n q with h | h | h | h | h <;> rw [h] <;> rfl

theorem scoreToTier_lt {s1 s2 t1 t2 : Nat} (h1 : scoreToTier s1 = some t1)
    (h2 : scoreToTier s2 = some t2) : s2 < s1 ↔ t1 < t2 := by
  unfold scoreToTier at h1 h2
  split_ifs at h1 h2 <;> simp_all <;> omega

-- ═════════════════════════════════════════════════════════════════════
-- The scored pool
-- ═════════════════════════════════════════════════════════════════════

theorem searchScored_map_fst (pool : List IndexEntry) (q : Str) :
    (searchScored pool q).map Prod.fst =
      pool.filter (fun e => decide (0 < scoreMatch (lowerStr e.name) q)) := by
  induction pool with
  | nil => rfl
  | cons e es ih =>
    simp only [searchScored, List.filterMap_cons, List.filter_cons] at ih ⊢
    by_cases h : 0 < scoreMatch (lowerStr e.name) q
    · simp [h, ih]
    · simp [h, ih]

theorem mem_searchScored {pool : List IndexEntry} {q : Str} {x : IndexEntry × Nat}
    (hx : x ∈ searchScored pool q) :
    x.2 = scoreMatch (lowerStr x.1.name) q ∧ 0 < x.2 := by
  rcases List.mem_filterMap.mp hx with ⟨e, _, he⟩
  by_cases h : 0 < scoreMatch (lowerStr e.name) q
  · rw [if_pos h] at he
    cases he
    exact ⟨rfl, h⟩
  · rw [if_neg h] at he
    cases he

-- ═════════════════════════════════════════════════════════════════════
-- The search comparator is a total preorder
-- ═════════════════════════════════════════════════════════════════════

theorem searchComparator_total (a b : IndexEntry × Nat) :
    searchComparator a b || searchComparator b a := by
  unfold searchComparator
  by_cases h : a.2 = b.2
  · rw [if_pos h, if_pos h.symm]
    exact strLe_total a.1.name b.1.name
  · rw [if_neg h, if_neg (Ne.symm h)]
    simp only [Bool.or_eq_true, decide_eq_true_eq]
    omega

theorem searchComparator_trans (a b c : IndexEntry × Nat)
    (h1 : searchComparator a b = true) (h2 : searchComparator b c = true) :
    searchComparator a c = true := by
  unfold searchComparator at h1 h2 ⊢
  by_cases hab : a.2 = b.2 <;> by_cases hbc : b.2 = c.2
  · rw [if_pos hab] at h1
    rw [if_pos hbc] at h2
    rw [if_pos (hab.trans hbc)]
    exact strLe_trans _ _ _ h1 h2
  · rw [if_neg hbc] at h2
    have hac : ¬ a.2 = c.2 := by rw [hab]; exact hbc
    rw [if_neg hac]
    simp only [decide_eq_true_eq] at h2 ⊢
    omega
  · rw [if_neg hab] at h1
    have hac : ¬ a.2 = c.2 := by rw [← hbc]; exact hab
    rw [if_neg hac]
    simp only [decide_eq_true_eq] at h1 ⊢
    omega
  · rw [if_neg hab] at h1
    rw [if_neg hbc] at h2
    simp only [decide_eq_true_eq] at h1 h2
    have hac : ¬ a.2 = c.2 := by omega
    rw [if_neg hac]
    simp only [decide_eq_true_eq]
    omega

-- ═════════════════════════════════════════════════════════════════════
-- Claim C1
-- ═════════════════════════════════════════════════════════════════════

/-- C1: for every ready index and every query whose trimmed lowercased
form q has at least two characters, search returns exactly the index
entries whose lowercased name matches q at some tier (0 exact, 1 prefix,
2 word prefix including the first word, 3 substring), ordered ascending
by tier and then lexicographically by name within a tier, truncated to
the limit; in particular, for the entries Tempest, Tempest Blueprint and
Advanced Tempest Core and the query tempest the result order is exactly
that. -/
theorem search_returns_ranked_tier_matches :
    (∀ (index : List IndexEntry) (query : Str) (limit : Nat),
        2 ≤ (lowerStr (trimStr query)).length →
        ∃ L : List IndexEntry,
          search IndexState.ready index query limit none = L.take limit ∧
          L.Perm (index.filter
            (fun e => (specTier (lowerStr e.name) (lowerStr (trimStr query))).isSome)) ∧
          L.Pairwise (fun a b =>
            specTierRank a (lowerStr (trimStr query)) <
                specTierRank b (lowerStr (trimStr query)) ∨
              (specTierRank a (lowerStr (trimStr query)) =
                  specTierRank b (lowerStr (trimStr query)) ∧
                strLe a.name b.name = true))) ∧
    search IndexState.ready tempestIndex ("tempest".toList) 25 none =
      [tempestEntry, tempestBlueprintEntry, advancedTempestCoreEntry] := by
  constructor
  · intro index query limit hq
    refine ⟨(stableSortLe searchComparator
        (searchScored (searchPool index none) (lowerStr (trimStr query)))).map Prod.fst,
      ?_, ?_, ?_⟩
    · unfold search
      rw [if_neg (by simp), if_neg (by omega)]
      exact List.map_take _ _ _
    · have hperm := (stableSortLe_perm searchComparator
        (searchScored (searchPool index none) (lowerStr (trimStr query)))).map Prod.fst
      rw [searchScored_map_fst] at hperm
      have hfc : (searchPool index none).filter
          (fun e => decide (0 < scoreMatch (lowerStr e.name) (lowerStr (trimStr query)))) =
          index.filter
            (fun e => (specTier (lowerStr e.name) (lowerStr (trimStr query))).isSome) := by
        have hpool : searchPool index none = index := rfl
        rw [hpool]
        apply List.filter_congr
        intro e _
        rw [specTier_eq]
        exact (scoreToTier_isSome_iff_pos _ _).symm
      rw [hfc] at hperm
      exact hperm
    · have hsorted := stableSortLe_pairwise searchComparator searchComparator_trans
        searchComparator_total (searchScored (searchPool index none) (lowerStr (trimStr query)))
      rw [List.pairwise_map]
      refine List.Pairwise.imp_of_mem ?_ hsorted
      intro p r hp hr hcmp
      have hp' := mem_searchScored ((stableSortLe_perm _ _).mem_iff.mp hp)
      have hr' := mem_searchScored ((stableSortLe_perm _ _).mem_iff.mp hr)
      unfold searchComparator at hcmp
      by_cases hpr : p.2 = r.2
      · right
        constructor
        · unfold specTierRank
          rw [specTier_eq, specTier_eq, ← hp'.1, ← hr'.1, hpr]
        · rw [if_pos hpr] at hcmp
          exact hcmp
      · left
        rw [if_neg hpr] at hcmp
        have hlt : r.2 < p.2 := by simpa using hcmp
        obtain ⟨tp, htp⟩ : ∃ t, scoreToTier p.2 = some t := by
          have hiff := scoreToTier_isSome_iff_pos (lowerStr p.1.name) (lowerStr (trimStr query))
          rw [← hp'.1] at hiff
          have h2 : (scoreToTier p.2).isSome = true := by
            rw [hiff]
            exact decide_eq_true hp'.2
          exact Option.isSome_iff_exists.mp h2
        obtain ⟨tr, htr⟩ : ∃ t, scoreToTier r.2 = some t := by
          have hiff := scoreToTier_isSome_iff_pos (lowerStr r.1.name) (lowerStr (trimStr query))
          rw [← hr'.1] at hiff
          have h2 : (scoreToTier r.2).isSome = true := by
            rw [hiff]
            exact decide_eq_true hr'.2
          exact Option.isSome_iff_exists.mp h2
        unfold specTierRank
        rw [specTier_eq, specTier_eq, ← hp'.1, ← hr'.1, htp, htr]
        exact (scoreToTier_lt htp htr).mp hlt
  · decide

/-- Witness for C1: the worked Tempest example instantiates the general
statement, with the length hypothesis discharged concretely. -/
theorem search_returns_ranked_tier_matches_witness :
    2 ≤ (lowerStr (trimStr ("tempest".toList))).length ∧
    (∃ L : List IndexEntry,
      search IndexState.ready tempestIndex ("tempest".toList) 25 none = L.take 25 ∧
      L.Perm (tempestIndex.filter
        (fun e => (specTier (lowerStr e.name)
          (lowerStr (trimStr ("tempest".toList)))).isSome)) ∧
      L.Pairwise (fun a b =>
        specTierRank a (lowerStr (trimStr ("tempest".toList))) <
            specTierRank b (lowerStr (trimStr ("tempest".toList))) ∨
          (specTierRank a (lowerStr (trimStr ("tempest".toList))) =
              specTierRank b (lowerStr (trimStr ("tempest".toList))) ∧
            strLe a.name b.name = true))) :=
  ⟨by decide, search_returns_ranked_tier_matches.1 tempestIndex ("tempest".toList) 25 (by decide)⟩

-- ═════════════════════════════════════════════════════════════════════
-- Claim C9
-- ═════════════════════════════════════════════════════════════════════

/-- C9: search called in any non-ready state returns the empty list, and
search with the empty query on a ready index returns the empty list; the
embedding is a total function, so neither call can raise. -/
theorem search_not_ready_or_empty_query :
    (∀ (st : IndexState) (index : List IndexEntry) (query : Str) (limit : Nat)
        (typeFilter : Option Str), st ≠ IndexState.ready →
        search st index query limit typeFilter = []) ∧
    (∀ (index : List IndexEntry) (limit : Nat) (typeFilter : Option Str),
        search IndexState.ready index [] limit typeFilter = []) := by
  constructor
  · intro st index query limit tf h
    unfold search
    rw [if_pos h]
  · intro index limit tf
    rfl

/-- Witness for C9: a call during loading and an empty-query call on a
ready one-entry index both evaluate to the empty list. -/
theorem search_not_ready_or_empty_query_witness :
    search IndexState.loading [tempestEntry] ("xx".toList) 25 none = [] ∧
    search IndexState.ready [tempestEntry] [] 25 none = [] :=
  ⟨search_not_ready_or_empty_query.1 IndexState.loading [tempestEntry] ("xx".toList) 25 none
      (by decide),
    search_not_ready_or_empty_query.2 [tempestEntry] 25 none⟩

-- ═════════════════════════════════════════════════════════════════════
-- Length accounting for the normalizeBaseName stages
-- ═════════════════════════════════════════════════════════════════════

theorem takeWhile_dropWhile_length (p : Char → Bool) (l : List Char) :
    (l.takeWhile p).length + (l.dropWhile p).length = l.length := by
  conv_rhs => rw [← List.takeWhile_append_dropWhile p l]
  rw [List.length_append]

theorem stripWordCI_length : ∀ (w s r : Str), stripWordCI w s = some r →
    r.length + w.length = s.length := by
  intro w
  induction w with
  | nil =>
    intro s r h
    simp only [stripWordCI, Option.some.injEq] at h
    subst h
    simp
  | cons a as ih =>
    intro s r h
    cases s with
    | nil => simp [stripWordCI] at h
    | cons c cs =>
      simp only [stripWordCI] at h
      split_ifs at h with hc
      have := ih cs r h
      simp only [List.length_cons]
      omega

theorem matchWsWordCI_length {word s r : Str} (h : matchWsWordCI word s = some r) :
    r.length < s.length := by
  unfold matchWsWordCI at h
  split_ifs at h with hws
  rcases hsw : stripWordCI word (s.dropWhile isWsChar) with _ | rest
  · rw [hsw] at h
    simp at h
  · rw [hsw] at h
    dsimp only at h
    split_ifs at h with hb
    have hr : rest = r := Option.some.inj h
    have h1 := stripWordCI_length word (s.dropWhile isWsChar) rest hsw
    have h2 := takeWhile_dropWhile_length isWsChar s
    have h3 : 0 < (s.takeWhile isWsChar).length := by
      cases htw : s.takeWhile isWsChar
      · rw [htw] at hws
        simp at hws
      · simp
    subst hr
    omega

theorem matchMkAt_length {s cap r : Str} (h : matchMkAt s = some (cap, r)) :
    r.length < s.length := by
  unfold matchMkAt at h
  dsimp only at h
  split_ifs at h with hws
  rcases hd : s.dropWhile isWsChar with _ | ⟨m, _ | ⟨k, _ | ⟨d, r2⟩⟩⟩ <;> rw [hd] at h
  · simp at h
  · simp at h
  · simp at h
  · dsimp only at h
    split_ifs at h with hmk hdig
    have hpair := Option.some.inj h
    injection hpair with hcap hr
    have e1 : ((r2.dropWhile isWsChar).dropWhile isDigitChar).length ≤
        (r2.dropWhile isWsChar).length :=
      (List.dropWhile_suffix isDigitChar).length_le
    have e2 : (r2.dropWhile isWsChar).length ≤ r2.length :=
      (List.dropWhile_suffix isWsChar).length_le
    have e3 := takeWhile_dropWhile_length isWsChar s
    have e4 : 0 < (s.takeWhile isWsChar).length := by
      cases htw : s.takeWhile isWsChar
      · rw [htw] at hws
        simp at hws
      · simp
    have e5 : (s.dropWhile isWsChar).length = r2.length + 3 := by
      rw [hd]
      simp
    rw [← hr]
    omega

theorem replaceWsWordGo_length_le (word : Str) :
    ∀ (fuel : Nat) (s : Str), (replaceWsWordGo word fuel s).length ≤ s.length := by
  intro fuel
  induction fuel with
  | zero => intro s; cases s <;> simp [replaceWsWordGo]
  | succ fuel ih =>
    intro s
    cases s with
    | nil => simp [replaceWsWordGo]
    | cons c cs =>
      simp only [replaceWsWordGo]
      rcases hm : matchWsWordCI word (c :: cs) with _ | rem
      · show (c :: replaceWsWordGo word fuel cs).length ≤ (c :: cs).length
        have := ih cs
        simp only [List.length_cons]
        omega
      · show (replaceWsWordGo word fuel rem).length ≤ (c :: cs).length
        have h1 := matchWsWordCI_length hm
        have h2 := ih rem
        omega

theorem replaceWsWordGo_eq_or_lt (word : Str) :
    ∀ (fuel : Nat) (s : Str),
      replaceWsWordGo word fuel s = s ∨ (replaceWsWordGo word fuel s).length < s.length := by
  intro fuel
  induction fuel with
  | zero => intro s; cases s <;> simp [replaceWsWordGo]
  | succ fuel ih =>
    intro s
    cases s with
    | nil => simp [replaceWsWordGo]
    | cons c cs =>
      simp only [replaceWsWordGo]
      rcases hm : matchWsWordCI word (c :: cs) with _ | rem
      · show c :: replaceWsWordGo word fuel cs = c :: cs ∨
          (c :: replaceWsWordGo word fuel cs).length < (c :: cs).length
        rcases ih cs with he | hl
        · left
          rw [he]
        · right
          simp only [List.length_cons]
          omega
      · show replaceWsWordGo word fuel rem = c :: cs ∨
          (replaceWsWordGo word fuel rem).length < (c :: cs).length
        right
        have h1 := matchWsWordCI_length hm
        have h2 := replaceWsWordGo_length_le word fuel rem
        omega

theorem replaceWsWordAll_length_le (word s : Str) :
    (replaceWsWordAll word s).length ≤ s.length :=
  replaceWsWordGo_length_le word s.length s

theorem replaceWsWordAll_eq_or_lt (word s : Str) :
    replaceWsWordAll word s = s ∨ (replaceWsWordAll word s).length < s.length :=
  replaceWsWordGo_eq_or_lt word s.length s

theorem replaceMkGo_length_le :
    ∀ (fuel : Nat) (s : Str), (replaceMkGo fuel s).length ≤ s.length := by
  intro fuel
  induction fuel with
  | zero => intro s; cases s <;> simp [replaceMkGo]
  | succ fuel ih =>
    intro s
    cases s with
    | nil => simp [replaceMkGo]
    | cons c cs =>
      simp only [replaceMkGo]
      rcases hm : matchMkAt (c :: cs) with _ | ⟨cap, rem⟩
      · show (c :: replaceMkGo fuel cs).length ≤ (c :: cs).length
        have := ih cs
        simp only [List.length_cons]
        omega
      · show (replaceMkGo fuel rem).length ≤ (c :: cs).length
        have h1 := matchMkAt_length hm
        have h2 := ih rem
        omega

theorem replaceMkGo_eq_or_lt :
    ∀ (fuel : Nat) (s : Str),
      replaceMkGo fuel s = s ∨ (replaceMkGo fuel s).length < s.length := by
  intro fuel
  induction fuel with
  | zero => intro s; cases s <;> simp [replaceMkGo]
  | succ fuel ih =>
    intro s
    cases s with
    | nil => simp [replaceMkGo]
    | cons c cs =>
      simp only [replaceMkGo]
      rcases hm : matchMkAt (c :: cs) with _ | ⟨cap, rem⟩
      · show c :: replaceMkGo fuel cs = c :: cs ∨
          (c :: replaceMkGo fuel cs).length < (c :: cs).length
        rcases ih cs with he | hl
        · left
          rw [he]
        · right
          simp only [List.length_cons]
          omega
      · show replaceMkGo fuel rem = c :: cs ∨
          (replaceMkGo fuel rem).length < (c :: cs).length
        right
        have h1 := matchMkAt_length hm
        have h2 := replaceMkGo_length_le fuel rem
        omega

theorem replaceMkAll_length_le (s : Str) : (replaceMkAll s).length ≤ s.length :=
  replaceMkGo_length_le s.length s

theorem replaceMkAll_eq_or_lt (s : Str) :
    replaceMkAll s = s ∨ (replaceMkAll s).length < s.length :=
  replaceMkGo_eq_or_lt s.length s

theorem romanSuffixSplit_length {s rem lbl : Str} (h : romanSuffixSplit s = some (rem, lbl)) :
    rem.length < s.length := by
  unfold romanSuffixSplit at h
  dsimp only at h
  split_ifs at h with h1 h2
  rcases hrest : s.reverse.dropWhile isRomanIVChar with _ | ⟨r0, rest'⟩ <;> rw [hrest] at h
  · simp at h
  · dsimp only at h
    split_ifs at h with hws
    have hpair := Option.some.inj h
    injection hpair with hrem hlbl
    have e1 : ((r0 :: rest').dropWhile isWsChar).length ≤ (r0 :: rest').length :=
      (List.dropWhile_suffix isWsChar).length_le
    have e2 := takeWhile_dropWhile_length isRomanIVChar s.reverse
    have e3 : s.reverse.length = s.length := List.length_reverse s
    have e4 : 0 < (s.reverse.takeWhile isRomanIVChar).length := by
      cases htw : s.reverse.takeWhile isRomanIVChar
      · rw [htw] at h1
        simp at h1
      · simp
    have e5 : (s.reverse.dropWhile isRomanIVChar).length = rest'.length + 1 := by
      rw [hrest]
      simp
    have e6 : rem.length = ((r0 :: rest').dropWhile isWsChar).length := by
      rw [← hrem]
      simp
    simp only [List.length_cons] at e1
    omega

theorem stripRomanSuffix_eq_or_lt (s : Str) :
    stripRomanSuffix s = s ∨ (stripRomanSuffix s).length < s.length := by
  unfold stripRomanSuffix
  rcases hr : romanSuffixSplit s with _ | ⟨rem, lbl⟩
  · left
    rfl
  · right
    exact romanSuffixSplit_length hr

theorem digitSuffixSplit_length {s rem lbl : Str} (h : digitSuffixSplit s = some (rem, lbl)) :
    rem.length < s.length := by
  unfold digitSuffixSplit at h
  dsimp only at h
  split_ifs at h with h1
  rcases hrest : s.reverse.dropWhile isDigitChar with _ | ⟨r0, rest'⟩ <;> rw [hrest] at h
  · simp at h
  · dsimp only at h
    split_ifs at h with hws
    have hpair := Option.some.inj h
    injection hpair with hrem hlbl
    have e1 : ((r0 :: rest').dropWhile isWsChar).length ≤ (r0 :: rest').length :=
      (List.dropWhile_suffix isWsChar).length_le
    have e2 := takeWhile_dropWhile_length isDigitChar s.reverse
    have e3 : s.reverse.length = s.length := List.length_reverse s
    have e4 : 0 < (s.reverse.takeWhile isDigitChar).length := by
      cases htw : s.reverse.takeWhile isDigitChar
      · rw [htw] at h1
        simp at h1
      · simp
    have e5 : (s.reverse.dropWhile isDigitChar).length = rest'.length + 1 := by
      rw [hrest]
      simp
    have e6 : rem.length = ((r0 :: rest').dropWhile isWsChar).length := by
      rw [← hrem]
      simp
    simp only [List.length_cons] at e1
    omega

theorem stripDigitSuffix_eq_or_lt (s : Str) :
    stripDigitSuffix s = s ∨ (stripDigitSuffix s).length < s.length := by
  unfold stripDigitSuffix
  rcases hr : digitSuffixSplit s with _ | ⟨rem, lbl⟩
  · left
    rfl
  · right
    exact digitSuffixSplit_length hr

theorem trimStr_length_le (s : Str) : (trimStr s).length ≤ s.length := by
  unfold trimStr
  have h1 : (s.dropWhile isWsChar).length ≤ s.length :=
    (List.dropWhile_suffix isWsChar).length_le
  have h2 : ((s.dropWhile isWsChar).reverse.dropWhile isWsChar).length ≤
      (s.dropWhile isWsChar).reverse.length :=
    (List.dropWhile_suffix isWsChar).length_le
  simp only [List.length_reverse] at h2 ⊢
  omega

theorem trimStr_eq_or_lt (s : Str) : trimStr s = s ∨ (trimStr s).length < s.length := by
  rcases Nat.lt_or_ge (trimStr s).length s.length with hlt | hge
  · right
    exact hlt
  · left
    have h1 : (s.dropWhile isWsChar).length ≤ s.length :=
      (List.dropWhile_suffix isWsChar).length_le
    have h2 : ((s.dropWhile isWsChar).reverse.dropWhile isWsChar).length ≤
        (s.dropWhile isWsChar).length := by
      have h := (List.dropWhile_suffix (l := (s.dropWhile isWsChar).reverse) isWsChar).length_le
      simpa using h
    have h3 : (trimStr s).length =
        ((s.dropWhile isWsChar).reverse.dropWhile isWsChar).length := by
      simp [trimStr]
    have hvlen : ((s.dropWhile isWsChar).reverse.dropWhile isWsChar).length =
        (s.dropWhile isWsChar).reverse.length := by
      simp only [List.length_reverse]
      omega
    have hv : (s.dropWhile isWsChar).reverse.dropWhile isWsChar =
        (s.dropWhile isWsChar).reverse :=
      (List.dropWhile_suffix isWsChar).eq_of_length hvlen
    have hulen : (s.dropWhile isWsChar).length = s.length := by omega
    have hu : s.dropWhile isWsChar = s :=
      (List.dropWhile_suffix isWsChar).eq_of_length hulen
    unfold trimStr
    rw [hv, List.reverse_reverse, hu]

-- ═════════════════════════════════════════════════════════════════════
-- Claim C2 (corrected)
-- ═════════════════════════════════════════════════════════════════════

/-- C2 counterexample: canonicalName is not idempotent for all strings.
Stripping the trailing digit of a name such as X III 2 exposes a Roman
suffix that only a second application removes, and the slug of the
canonical name changes with it. -/
theorem normalizeBaseName_not_idempotent :
    normalizeBaseName (normalizeBaseName stackedTierName) ≠
      normalizeBaseName stackedTierName ∧
    nameToSlug (normalizeBaseName (normalizeBaseName stackedTierName)) ≠
      nameToSlug (normalizeBaseName stackedTierName) := by
  decide

/-- C2 (amended): a second application of canonicalName is the identity
exactly when every stripping stage (Blueprint, Recipe, Mk, trailing
Roman numeral, trailing digits, trim) leaves the first result unchanged;
under that condition the slug of the canonical name is stable under a
further application.  Without the condition idempotence fails, as the
counterexample shows. -/
theorem normalizeBaseName_idempotent_iff :
    ∀ x : Str,
      (normalizeBaseName (normalizeBaseName x) = normalizeBaseName x ↔
        (replaceWsWordAll blueprintWord (normalizeBaseName x) = normalizeBaseName x ∧
          replaceWsWordAll recipeWord (normalizeBaseName x) = normalizeBaseName x ∧
          replaceMkAll (normalizeBaseName x) = normalizeBaseName x ∧
          stripRomanSuffix (normalizeBaseName x) = normalizeBaseName x ∧
          stripDigitSuffix (normalizeBaseName x) = normalizeBaseName x ∧
          trimStr (normalizeBaseName x) = normalizeBaseName x)) ∧
      (normalizeBaseName (normalizeBaseName x) = normalizeBaseName x →
        nameToSlug (normalizeBaseName (normalizeBaseName x)) =
          nameToSlug (normalizeBaseName x)) := by
  intro x
  generalize normalizeBaseName x = y
  constructor
  · constructor
    · intro h
      have hlen : (normalizeBaseName y).length = y.length := by rw [h]
      unfold normalizeBaseName at hlen
      have L2 := replaceWsWordAll_length_le recipeWord (replaceWsWordAll blueprintWord y)
      have L3 := replaceMkAll_length_le
        (replaceWsWordAll recipeWord (replaceWsWordAll blueprintWord y))
      have L4 := stripRomanSuffix_eq_or_lt
        (replaceMkAll (replaceWsWordAll recipeWord (replaceWsWordAll blueprintWord y)))
      have L4le : (stripRomanSuffix (replaceMkAll
          (replaceWsWordAll recipeWord (replaceWsWordAll blueprintWord y)))).length ≤
          (replaceMkAll
            (replaceWsWordAll recipeWord (replaceWsWordAll blueprintWord y))).length := by
        rcases L4 with he | hl
        · rw [he]
        · omega
      have L5 := stripDigitSuffix_eq_or_lt (stripRomanSuffix (replaceMkAll
        (replaceWsWordAll recipeWord (replaceWsWordAll blueprintWord y))))
      have L5le : (stripDigitSuffix (stripRomanSuffix (replaceMkAll
          (replaceWsWordAll recipeWord (replaceWsWordAll blueprintWord y))))).length ≤
          (stripRomanSuffix (replaceMkAll
            (replaceWsWordAll recipeWord (replaceWsWordAll blueprintWord y)))).length := by
        rcases L5 with he | hl
        · rw [he]
        · omega
      have L6 := trimStr_length_le (stripDigitSuffix (stripRomanSuffix (replaceMkAll
        (replaceWsWordAll recipeWord (replaceWsWordAll blueprintWord y)))))
      have h1 : replaceWsWordAll blueprintWord y = y := by
        rcases replaceWsWordAll_eq_or_lt blueprintWord y with he | hl
        · exact he
        · exfalso
          omega
      rw [h1] at L2 L3 L4le L5le L6 hlen
      have h2 : replaceWsWordAll recipeWord y = y := by
        rcases replaceWsWordAll_eq_or_lt recipeWord y with he | hl
        · exact he
        · exfalso
          omega
      rw [h2] at L3 L4le L5le L6 hlen
      have h3 : replaceMkAll y = y := by
        rcases replaceMkAll_eq_or_lt y with he | hl
        · exact he
        · exfalso
          omega
      rw [h3] at L4le L5le L6 hlen
      have h4 : stripRomanSuffix y = y := by
        rcases stripRomanSuffix_eq_or_lt y with he | hl
        · exact he
        · exfalso
          omega
      rw [h4] at L5le L6 hlen
      have h5 : stripDigitSuffix y = y := by
        rcases stripDigitSuffix_eq_or_lt y with he | hl
        · exact he
        · exfalso
          omega
      rw [h5] at L6 hlen
      have h6 : trimStr y = y := by
        rcases trimStr_eq_or_lt y with he | hl
        · exact he
        · exfalso
          omega
      exact ⟨h1, h2, h3, h4, h5, h6⟩
    · rintro ⟨h1, h2, h3, h4, h5, h6⟩
      unfold normalizeBaseName
      rw [h1, h2, h3, h4, h5, h6]
  · intro h
    rw [h]

/-- Witness for C2: on the name Tempest Blueprint the stage conditions
hold concretely, so canonicalName is idempotent there and the slug is
stable. -/
theorem normalizeBaseName_idempotent_iff_witness :
    normalizeBaseName (normalizeBaseName tempestBlueprintName) =
      normalizeBaseName tempestBlueprintName ∧
    nameToSlug (normalizeBaseName (normalizeBaseName tempestBlueprintName)) =
      nameToSlug (normalizeBaseName tempestBlueprintName) := by
  have h := (normalizeBaseName_idempotent_iff tempestBlueprintName).1.mpr (by decide)
  exact ⟨h, (normalizeBaseName_idempotent_iff tempestBlueprintName).2 h⟩

-- ═════════════════════════════════════════════════════════════════════
-- Lemmas for the tier comparator
-- ═════════════════════════════════════════════════════════════════════

theorem localeCmpInt_le_iff (a b : Str) : localeCmpInt a b ≤ 0 ↔ strLe a b = true := by
  unfold localeCmpInt strLe
  rcases strCmp a b <;> simp

theorem keyLe_total (x y : Nat × Nat × Str) : keyLe x y || keyLe y x := by
  unfold keyLe
  by_cases h1 : x.1 < y.1
  · simp [h1]
  · by_cases h2 : y.1 < x.1
    · simp [h1, h2]
    · by_cases h3 : x.2.1 < y.2.1
      · simp [h1, h2, h3]
      · by_cases h4 : y.2.1 < x.2.1
        · simp [h1, h2, h3, h4]
        · simp only [h1, h2, h3, h4, if_false]
          exact strLe_total x.2.2 y.2.2

theorem keyLe_trans (x y z : Nat × Nat × Str)
    (h1 : keyLe x y = true) (h2 : keyLe y z = true) : keyLe x z = true := by
  unfold keyLe at h1 h2 ⊢
  split_ifs at h1 h2 ⊢ <;>
    first
      | rfl
      | omega
      | exact strLe_trans _ _ _ h1 h2

theorem compareItemsByTier_le_iff (a b : Item) :
    compareItemsByTier a b ≤ 0 ↔ tierSpecLe a b = true := by
  unfold compareItemsByTier tierSpecLe tierSortKey
  rcases hla : getTierLabel a.name with _ | la <;>
    rcases hlb : getTierLabel b.name with _ | lb <;> dsimp only
  · unfold keyLe
    dsimp only
    simp only [lt_irrefl, if_false]
    exact localeCmpInt_le_iff a.name b.name
  · rcases hib : tierOrderIdx lb with _ | ib <;> dsimp only <;> unfold keyLe <;>
      dsimp only <;> simp
  · rcases hia : tierOrderIdx la with _ | ia <;> dsimp only <;> unfold keyLe <;>
      dsimp only <;> simp
  · rcases hia : tierOrderIdx la with _ | ia <;> rcases hib : tierOrderIdx lb with _ | ib <;>
      dsimp only <;> unfold keyLe <;> dsimp only
    · simp only [lt_irrefl, if_false]
      exact localeCmpInt_le_iff la lb
    · simp
    · simp
    · split_ifs with hab hba <;> simp [strLe, strCmp] <;> omega

-- ═════════════════════════════════════════════════════════════════════
-- Claim C3 (corrected)
-- ═════════════════════════════════════════════════════════════════════

/-- C3 counterexample: on the claimed shared ascending integer scale a
bare-digit 2 member would sort before a Roman III member, and Blueprint
and Recipe members would sort after all Mk members; sortItemsByTier
orders both pairs the other way around. -/
theorem sortItemsByTier_not_shared_scale :
    sortItemsByTier [itemX2, itemXIII] = [itemXIII, itemX2] ∧
    sortItemsByTier [itemXMk2, itemXBlueprint] = [itemXBlueprint, itemXMk2] ∧
    itemX2 ≠ itemXIII ∧ itemXMk2 ≠ itemXBlueprint := by
  decide

/-- C3 (amended): sortItemsByTier returns a permutation of its input in
which members with no tier label come first with ties broken
lexicographically by raw name, then members whose label is listed in
TIER_ORDER ordered by list position (Roman numerals I to V, then bare
digits 1 to 5, then Blueprint, then Recipe), and finally members with
any other label (such as Mk markers) ordered lexicographically by the
label; equal-position members keep their input order. -/
theorem sortItemsByTier_sorted_perm :
    ∀ items : List Item,
      (sortItemsByTier items).Perm items ∧
      (sortItemsByTier items).Pairwise (fun a b => tierSpecLe a b = true) := by
  intro items
  have hle : ∀ a b : Item, decide (compareItemsByTier a b ≤ 0) = tierSpecLe a b := by
    intro a b
    by_cases h : compareItemsByTier a b ≤ 0
    · simp [h, (compareItemsByTier_le_iff a b).mp h]
    · have hf : tierSpecLe a b = false := by
        cases hv : tierSpecLe a b
        · rfl
        · exact absurd ((compareItemsByTier_le_iff a b).mpr hv) h
      simp [h, hf]
  constructor
  · exact stableSortLe_perm _ items
  · have htrans : ∀ a b c : Item, decide (compareItemsByTier a b ≤ 0) = true →
        decide (compareItemsByTier b c ≤ 0) = true →
        decide (compareItemsByTier a c ≤ 0) = true := by
      intro a b c h1 h2
      rw [hle] at h1 h2 ⊢
      exact keyLe_trans _ _ _ h1 h2
    have htotal : ∀ a b : Item,
        decide (compareItemsByTier a b ≤ 0) || decide (compareItemsByTier b a ≤ 0) := by
      intro a b
      rw [hle, hle]
      exact keyLe_total _ _
    have hsorted := stableSortLe_pairwise _ htrans htotal items
    refine hsorted.imp ?_
    intro a b hab
    rw [← hle a b]
    exact hab

-- ═════════════════════════════════════════════════════════════════════
-- Claim C4 (corrected)
-- ═════════════════════════════════════════════════════════════════════

/-- C4 counterexample: the MetaForge cachedFetch consults no in-flight
registry, so two calls for the same dataset issued while the first
network request is still in flight both invoke the fetcher: two network
requests are made where the claim demands exactly one. -/
theorem cachedFetch_concurrent_pair_two_requests :
    cachedFetchConcurrentPair (none : Option Nat) 0 = 2 ∧ (2 : Nat) ≠ 1 := by
  constructor
  · rfl
  · decide

/-- C4 (amended): in-flight request sharing exists in the ARDB service
but not in the MetaForge service.  Two concurrent cold-cache cachedFetch
calls for one dataset each issue their own network request; two
concurrent fetchArdbItems calls share one request through the module
promise field; and that field is cleared on success but left set when
the request fails. -/
theorem inflight_dedup_characterization :
    (∀ (α : Type) (d : α), cachedFetchConcurrentPair (none : Option α) d = 2) ∧
    (∀ (α : Type) (d : α), fetchArdbItemsConcurrentPair d = 1) ∧
    (∀ (α : Type) (d : α), (fetchArdbItemsFailureState d).listPromiseSet = true ∧
      (fetchArdbItemsFailureState d).networkCalls = 1) := by
  refine ⟨?_, ?_, ?_⟩ <;> intro α d
  · rfl
  · rfl
  · exact ⟨rfl, rfl⟩

-- ═════════════════════════════════════════════════════════════════════
-- Claim C5
-- ═════════════════════════════════════════════════════════════════════

/-- C5: after writing a cache entry, a read of the same key at time now
returns the written data together with its age whenever the age
now - t is at most the ttl, and reads absent whenever the age strictly
exceeds the ttl; staleness is exactly the strict comparison, evaluated
on read, and the read itself changes nothing. -/
theorem cache_write_read_roundtrip :
    ∀ (α : Type) (store : Store α) (key : Str) (data : α) (ttl t now : Int),
      getCache (writeStore store key data ttl t) key now =
        if ttl < now - t then none else some (data, now - t) := by
  intro α store key data ttl t now
  unfold getCache writeStore
  rw [if_pos rfl]

-- ═════════════════════════════════════════════════════════════════════
-- Claim C6
-- ═════════════════════════════════════════════════════════════════════

theorem foldl_append_flatMap {ρ : Type} (f : Nat → List ρ) :
    ∀ (l : List Nat) (init : List ρ),
      l.foldl (fun acc p => acc ++ f p) init = init ++ l.flatMap f := by
  intro l
  induction l with
  | nil =>
    intro init
    simp
  | cons a as ih =>
    intro init
    simp only [List.foldl_cons, List.flatMap_cons]
    rw [ih (init ++ f a), List.append_assoc]

theorem fetchAllPagesNextGo_spec {ρ : Type} (provider : Nat → ApiPage ρ) :
    ∀ (k start fuel : Nat),
      (∀ i, i < k → (provider (start + i)).hasNextPage.getD false = true) →
      (provider (start + k)).hasNextPage.getD false = false →
      k + 1 ≤ fuel →
      fetchAllPagesNextGo provider fuel start =
        (List.range' start (k + 1)).flatMap (fun p => (provider p).data.getD []) := by
  intro k
  induction k with
  | zero =>
    intro start fuel h1 h2 hf
    obtain ⟨f, rfl⟩ : ∃ f, fuel = f + 1 := ⟨fuel - 1, by omega⟩
    unfold fetchAllPagesNextGo
    dsimp only
    rw [show start + 0 = start by omega] at h2
    rw [h2]
    simp [List.range'_one]
  | succ k ih =>
    intro start fuel h1 h2 hf
    obtain ⟨f, rfl⟩ : ∃ f, fuel = f + 1 := ⟨fuel - 1, by omega⟩
    unfold fetchAllPagesNextGo
    dsimp only
    have h0 : (provider start).hasNextPage.getD false = true := by
      have h := h1 0 (by omega)
      rw [show start + 0 = start by omega] at h
      exact h
    rw [h0]
    have ihres := ih (start + 1) f
      (by
        intro i hi
        have h := h1 (i + 1) (by omega)
        rw [show start + (i + 1) = start + 1 + i by omega] at h
        exact h)
      (by
        rw [show start + 1 + k = start + (k + 1) by omega]
        exact h2)
      (by omega)
    rw [if_pos rfl, ihres]
    rw [List.range'_succ start (k + 1) 1, List.flatMap_cons]

/-- C6: both pagination variants follow the envelope signal until
exhausted and return the concatenation of the per-page data arrays in
page order, preserving record order across and within pages.  The
totalPages variant reads the page count from page one; the hasNextPage
variant follows the has-more flag, with the fuel bounding the loop
iterations from above. -/
theorem fetchAllPages_merges_in_page_order :
    (∀ (ρ : Type) (provider : Nat → ApiPage ρ),
        1 ≤ (provider 1).totalPages.getD 1 →
        fetchAllPagesTotal provider =
          (List.range' 1 ((provider 1).totalPages.getD 1)).flatMap
            (fun p => (provider p).data.getD [])) ∧
    (∀ (ρ : Type) (provider : Nat → ApiPage ρ) (n fuel : Nat),
        1 ≤ n →
        (∀ p, 1 ≤ p → p < n → (provider p).hasNextPage.getD false = true) →
        (provider n).hasNextPage.getD false = false →
        n ≤ fuel →
        fetchAllPagesNext provider fuel =
          (List.range' 1 n).flatMap (fun p => (provider p).data.getD [])) := by
  constructor
  · intro ρ provider h
    unfold fetchAllPagesTotal
    dsimp only
    obtain ⟨m, hm⟩ : ∃ m, (provider 1).totalPages.getD 1 = m + 1 :=
      ⟨(provider 1).totalPages.getD 1 - 1, by omega⟩
    rw [hm, foldl_append_flatMap, List.range'_succ 1 m 1]
    rw [show m + 1 - 1 = m by omega, List.flatMap_cons]
  · intro ρ provider n fuel h1 h2 h3 h4
    unfold fetchAllPagesNext
    obtain ⟨k, rfl⟩ : ∃ k, n = k + 1 := ⟨n - 1, by omega⟩
    exact fetchAllPagesNextGo_spec provider k 1 fuel
      (by
        intro i hi
        exact h2 (1 + i) (by omega) (by omega))
      (by
        rw [show 1 + k = k + 1 by omega]
        exact h3)
      (by omega)

set_option maxRecDepth 40000 in
/-- Witness for C6: a three-page provider with page sizes 100, 100 and
27 merges, under either variant, into the single ordered list of the
227 records numbered 0 to 226. -/
theorem fetchAllPages_merges_in_page_order_witness :
    fetchAllPagesTotal pagedProvider3 = List.range' 0 227 ∧
    fetchAllPagesNext pagedProvider3 3 = List.range' 0 227 := by
  constructor
  · have h := fetchAllPages_merges_in_page_order.1 Nat pagedProvider3 (by decide)
    rw [h]
    decide
  · have h := fetchAllPages_merges_in_page_order.2 Nat pagedProvider3 3 3 (by decide)
      (by
        intro p hp1 hp2
        interval_cases p <;> decide)
      (by decide) (by decide)
    rw [h]
    decide

-- ═════════════════════════════════════════════════════════════════════
-- Claim C7 (corrected)
-- ═════════════════════════════════════════════════════════════════════

/-- C7 counterexample: in the totalPages-variant service (the lines the
specification cites), status 413 has no entry in the message table and
falls through to the generic fallback, against the claim that 400, 404,
413 and 500 all carry specific text; the hasNextPage-variant table does
special-case 413, and 400 is special-cased in both. -/
theorem fetchUrl_413_generic_fallback :
    errorMessagesTotalVariant 413 ("/items".toList) = none ∧
    fetchUrlTotalVariant (J := Unit) (FetchOutcome.resp 413 (some ())) ("/items".toList) =
      Except.error (mkMetaForgeError (genericHttpMessage 413 ("/items".toList)) 413
        ("/items".toList)) ∧
    errorMessagesHasNextVariant 413 ("/items".toList) ≠ none ∧
    errorMessagesTotalVariant 400 ("/items".toList) ≠ none := by
  refine ⟨rfl, rfl, ?_, ?_⟩
  · decide
  · decide

/-- C7 (amended): every failure of the totalPages-variant fetch service
is one structured error carrying message, status, endpoint label and a
retryable flag that is true exactly for statuses 0 and 500; a network
failure carries status 0; a non-2xx response carries the HTTP status
with the table message for 400, 404 and 500 and the generic fallback
for every other status (including 413); a 2xx response with an
unparseable body yields a non-retryable error carrying the HTTP
status. -/
theorem fetchUrl_error_taxonomy :
    ∀ (J : Type) (lbl : Str),
      (∀ m : Str, fetchUrlTotalVariant (J := J) (FetchOutcome.netFail m) lbl =
        Except.error ⟨networkMessageTotalVariant lbl m, 0, lbl, true⟩) ∧
      (∀ (status : Nat) (body : Option J), responseOk status = false →
        fetchUrlTotalVariant (FetchOutcome.resp status body) lbl =
          Except.error (mkMetaForgeError
            ((errorMessagesTotalVariant status lbl).getD (genericHttpMessage status lbl))
            status lbl)) ∧
      (∀ (m e : Str) (status : Nat),
        (mkMetaForgeError m status e).retryable = true ↔ (status = 0 ∨ status = 500)) ∧
      (∀ (status : Nat) (j : J), responseOk status = true →
        fetchUrlTotalVariant (FetchOutcome.resp status (some j)) lbl = Except.ok j) ∧
      (∀ status : Nat, responseOk status = true →
        fetchUrlTotalVariant (J := J) (FetchOutcome.resp status none) lbl =
          Except.error ⟨invalidJsonMessage lbl, status, lbl, false⟩) := by
  intro J lbl
  refine ⟨?_, ?_, ?_, ?_, ?_⟩
  · intro m
    rfl
  · intro status body h
    simp [fetchUrlTotalVariant, fetchUrlModel, h]
  · intro m e status
    unfold mkMetaForgeError
    simp only [Bool.or_eq_true, beq_iff_eq]
    constructor
    · intro h
      omega
    · intro h
      omega
  · intro status j h
    simp [fetchUrlTotalVariant, fetchUrlModel, h]
  · intro status h
    have h' : 200 ≤ status ∧ status < 300 := by
      simpa [responseOk] using h
    have hr : (status == 500 || status == 0) = false := by
      simp only [Bool.or_eq_false_iff, beq_eq_false_iff_ne]
      constructor
      · omega
      · omega
    simp only [fetchUrlTotalVariant, fetchUrlModel, h, if_true]
    unfold mkMetaForgeError
    rw [hr]

/-- Witness for C7: concrete instances of the taxonomy at statuses 404
(table message, non-retryable), 500-free 2xx success, and a 200 response
with an unparseable body. -/
theorem fetchUrl_error_taxonomy_witness :
    responseOk 404 = false ∧
    fetchUrlTotalVariant (J := Unit) (FetchOutcome.resp 404 (some ())) ("/items".toList) =
      Except.error (mkMetaForgeError
        ((errorMessagesTotalVariant 404 ("/items".toList)).getD
          (genericHttpMessage 404 ("/items".toList))) 404 ("/items".toList)) ∧
    responseOk 200 = true ∧
    fetchUrlTotalVariant (J := Unit) (FetchOutcome.resp 200 none) ("/items".toList) =
      Except.error ⟨invalidJsonMessage ("/items".toList), 200, ("/items".toList), false⟩ :=
  ⟨by decide,
    (fetchUrl_error_taxonomy Unit ("/items".toList)).2.1 404 (some ()) (by decide),
    by decide,
    (fetchUrl_error_taxonomy Unit ("/items".toList)).2.2.2.2 200 (by decide)⟩

-- ═════════════════════════════════════════════════════════════════════
-- Claim C8 (corrected)
-- ═════════════════════════════════════════════════════════════════════

theorem buildArdbCrossRef_foldl (k : Str) :
    ∀ (items : List ArdbItem) (m0 : ArdbMap),
      (items.foldl
        (fun m it => if it.name.isEmpty then m else ardbMapSet m (ardbKey it.name) it)
        m0) k =
      match items.reverse.find?
          (fun r => !(r.name.isEmpty) && (ardbKey r.name == k)) with
      | some r => some r
      | none => m0 k := by
  intro items
  induction items with
  | nil =>
    intro m0
    rfl
  | cons it rest ih =>
    intro m0
    simp only [List.foldl_cons, List.reverse_cons]
    rw [ih, List.find?_append]
    rcases hfr : rest.reverse.find?
        (fun r => !(r.name.isEmpty) && (ardbKey r.name == k)) with _ | r <;> rw [hfr]
    · show (if it.name.isEmpty = true then m0 else ardbMapSet m0 (ardbKey it.name) it) k =
        match [it].find? (fun r => !(r.name.isEmpty) && (ardbKey r.name == k)) with
        | some r => some r
        | none => m0 k
      by_cases he : it.name.isEmpty
      · simp [he, List.find?]
      · by_cases hk : ardbKey it.name = k
        · simp [he, hk, List.find?, ardbMapSet]
        · have hk2 : ¬ k = ardbKey it.name := fun hh => hk hh.symm
          have hk3 : (ardbKey it.name == k) = false := by simp [hk]
          simp [he, hk, hk2, hk3, List.find?, ardbMapSet]
    · rfl

theorem lookupArdb_empty_name_cases :
    lookupArdbByName [] (buildArdbCrossRef [ardbBlankNameRecord]) = none ∧
    specLastExactMatch [ardbBlankNameRecord] [] = some ardbBlankNameRecord ∧
    lookupArdbByName [' '] (buildArdbCrossRef [ardbEmptyNameRecord]) = none ∧
    specLastExactMatch [ardbEmptyNameRecord] [' '] = some ardbEmptyNameRecord := by
  decide

/-- C8 (amended): for every secondary-provider list and every non-empty
query name, lookup over the built cross-reference returns the last
record of the list with a non-empty raw display name whose trimmed
lowercased name equals the trimmed lowercased query (so collisions
resolve last-write-wins), and returns absent, not an error, when no such
record exists; matching is exact on the normalized names, with no fuzzy
or partial matching.  An empty query returns absent without consulting
the map, and records with an empty raw name are never indexed. -/
theorem lookupArdbByName_last_exact_match :
    ∀ (items : List ArdbItem) (name : Str), name ≠ [] →
      lookupArdbByName name (buildArdbCrossRef items) =
        items.reverse.find?
          (fun r => !(r.name.isEmpty) && (ardbKey r.name == ardbKey name)) := by
  intro items name h
  unfold lookupArdbByName
  have hne : name.isEmpty = false := by
    cases name
    · exact absurd rfl h
    · rfl
  rw [if_neg (by simp [hne])]
  unfold buildArdbCrossRef
  rw [buildArdbCrossRef_foldl]
  rcases hf : items.reverse.find?
      (fun r => !(r.name.isEmpty) && (ardbKey r.name == ardbKey name)) with _ | r <;>
    rw [hf]

/-- Witness for C8: a case-different, whitespace-padded query resolves
to the later of two colliding records. -/
theorem lookupArdbByName_last_exact_match_witness :
    ("TEMPEST".toList ≠ ([] : Str)) ∧
    lookupArdbByName ("TEMPEST".toList)
      (buildArdbCrossRef [ardbTempestOld, ardbTempestNew]) = some ardbTempestNew :=
  ⟨by decide,
    (lookupArdbByName_last_exact_match [ardbTempestOld, ardbTempestNew] ("TEMPEST".toList)
      (by decide)).trans (by decide)⟩

-- ═════════════════════════════════════════════════════════════════════
-- Claim C10 (corrected)
-- ═════════════════════════════════════════════════════════════════════

theorem lookup_mem_pairs : ∀ (l : List (Str × Str)) (k b : Str),
    List.lookup k l = some b → (k, b) ∈ l := by
  intro l
  induction l with
  | nil =>
    intro k b h
    simp [List.lookup] at h
  | cons p ps ih =>
    intro k b h
    rcases p with ⟨pk, pv⟩
    simp only [List.lookup] at h
    cases hkv : (k == pk) <;> rw [hkv] at h
    · exact List.mem_cons_of_mem _ (ih k b h)
    · have hb : pv = b := Option.some.inj h
      have hke : k = pk := by simpa using hkv
      subst hb
      subst hke
      exact List.mem_cons_self _ _

theorem bucketMap_lookup_mem {k b : Str} (h : List.lookup k BUCKET_MAP = some b) :
    b ∈ BUCKET_LABELS := by
  have hmem := lookup_mem_pairs BUCKET_MAP k b h
  have hall : ∀ p ∈ BUCKET_MAP, p.2 ∈ BUCKET_LABELS := by decide
  exact hall _ hmem

theorem getBucket_result_none {label : Str} (seen : List Str)
    (h : List.lookup (trimStr (lowerStr label)) BUCKET_MAP = none) :
    (getBucket label seen).1 = none := by
  unfold getBucket
  by_cases he : label.isEmpty
  · rw [if_pos he]
  · rw [if_neg he]
    dsimp only
    rw [h]
    split_ifs <;> rfl

theorem getBucket_result_mem {label : Str} (seen : List Str) {b : Str}
    (h : (getBucket label seen).1 = some b) : b ∈ BUCKET_LABELS := by
  unfold getBucket at h
  split_ifs at h with he
  dsimp only at h
  split_ifs at h with hcond
  exact bucketMap_lookup_mem h

theorem runBuckets_count_unmapped {label : Str} (hne : label ≠ [])
    (hun : List.lookup (trimStr (lowerStr label)) BUCKET_MAP = none) :
    ∀ (lookups seen : List Str),
      (runBuckets lookups seen).logs.count label =
        if label ∈ lookups ∧ label ∉ seen then 1 else 0 := by
  intro lookups
  induction lookups with
  | nil =>
    intro seen
    simp [runBuckets]
  | cons l ls ih =>
    intro seen
    simp only [runBuckets]
    by_cases hl : l = label
    · subst hl
      have hle : l.isEmpty = false := by
        cases l
        · exact absurd rfl hne
        · rfl
      by_cases hs : l ∈ seen
      · have hstep : getBucket l seen = (none, seen, []) := by
          unfold getBucket
          rw [if_neg (by simp [hle])]
          dsimp only
          rw [hun]
          rw [if_neg (by simp [hs])]
        rw [hstep]
        dsimp only
        simp [ih seen, hs]
      · have hstep : getBucket l seen = (none, l :: seen, [l]) := by
          unfold getBucket
          rw [if_neg (by simp [hle])]
          dsimp only
          rw [hun]
          rw [if_pos (by simp [hs])]
        rw [hstep]
        dsimp only
        rw [List.count_append, ih (l :: seen)]
        simp [hs, List.count_cons]
    · have hll : ¬ label = l := fun hh => hl hh.symm
      have hcl : (getBucket l seen).2.2.count label = 0 ∧
          (label ∈ (getBucket l seen).2.1 ↔ label ∈ seen) := by
        unfold getBucket
        split_ifs with he
        · exact ⟨rfl, Iff.rfl⟩
        · dsimp only
          split_ifs with hcond
          · constructor
            · simp [List.count_cons, hll]
            · simp [List.mem_cons, hll]
          · exact ⟨rfl, Iff.rfl⟩
      obtain ⟨hc0, hmem⟩ := hcl
      rw [List.count_append, hc0, ih ((getBucket l seen).2.1)]
      simp [hmem, hll]

/-- C10 counterexample: the empty label is absent from the mapping table
yet is never logged; two lookups of it log nothing, where the claim
demands exactly one log entry per distinct unmapped label. -/
theorem getBucket_empty_label_never_logged :
    List.lookup (trimStr (lowerStr ([] : Str))) BUCKET_MAP = none ∧
    (runBuckets [([] : Str), []] []).logs = [] ∧
    (runBuckets [([] : Str), []] []).logs.count [] = 0 := by
  decide

/-- C10 (amended): an unmapped label yields absent, and every non-empty
unmapped label is logged exactly once per session no matter how many
times it is looked up, with the seen-set deduplicating repeats; mapped
labels return one of the six fixed bucket names; the empty label yields
absent without ever being logged. -/
theorem getBucket_unmapped_logged_once :
    (∀ (label : Str) (lookups : List Str), label ≠ [] →
        List.lookup (trimStr (lowerStr label)) BUCKET_MAP = none →
        (runBuckets lookups []).logs.count label = if label ∈ lookups then 1 else 0) ∧
    (∀ (label : Str) (seen : List Str),
        List.lookup (trimStr (lowerStr label)) BUCKET_MAP = none →
        (getBucket label seen).1 = none) ∧
    (∀ (label : Str) (seen : List Str) (b : Str),
        (getBucket label seen).1 = some b → b ∈ BUCKET_LABELS) := by
  refine ⟨?_, ?_, ?_⟩
  · intro label lookups hne hun
    have h := runBuckets_count_unmapped hne hun lookups []
    simpa using h
  · intro label seen h
    exact getBucket_result_none seen h
  · intro label seen b h
    exact getBucket_result_mem seen h

/-- Witness for C10: three lookups of the unmapped label Gadget log it
exactly once; Gadget buckets to absent; Weapon buckets to Weapons, one
of the fixed names. -/
theorem getBucket_unmapped_logged_once_witness :
    (runBuckets ["Gadget".toList, "Gadget".toList, "Gadget".toList] []).logs.count
      ("Gadget".toList) = 1 ∧
    (getBucket ("Gadget".toList) []).1 = none ∧
    "Weapons".toList ∈ BUCKET_LABELS :=
  ⟨(getBucket_unmapped_logged_once.1 ("Gadget".toList)
      ["Gadget".toList, "Gadget".toList, "Gadget".toList] (by decide) (by decide)).trans
      (by decide),
    getBucket_unmapped_logged_once.2.1 ("Gadget".toList) [] (by decide),
    getBucket_unmapped_logged_once.2.2 ("Weapon".toList) [] ("Weapons".toList) (by decide)⟩
